import Mathlib

/-!
Verification development for the Obsidian-to-LaTeX core (`parser_utils.py`).

Lines are modelled as `List Char`.  Every definition below is a direct
shallow embedding of the corresponding Python function; regular-expression
operations are embedded as explicit scanners that reproduce the
leftmost-match, laziness/greediness and backtracking behaviour of the
concrete patterns used by the source.
-/

/-- Whitespace as matched by Python's `\s` and `str.strip()` (ASCII range). -/
def isWS (c : Char) : Bool :=
  c = ' ' || c = '\t' || c = '\n' || c = '\x0d' || c = '\x0b' || c = '\x0c'

/-- Python `str.lstrip()`. -/
def lstripWS (s : List Char) : List Char := s.dropWhile isWS

/-- Python `str.rstrip()`. -/
def rstripWS (s : List Char) : List Char := (s.reverse.dropWhile isWS).reverse

/-- Python `str.strip()`. -/
def strip (s : List Char) : List Char := rstripWS (lstripWS s)

/-- Word characters as matched by `\w` (ASCII range). -/
def isWordChar (c : Char) : Bool := c.isAlpha || c.isDigit || c = '_'

/-- `detect_header(line)` for the pattern `^(#{1,3})\s(.*)`: one to three
leading `#` followed by one whitespace character; level is the hash count,
title the rest of the line. -/
def detect_header_range (line : List Char) : Option (Nat × List Char) :=
  let n := (line.takeWhile (· = '#')).length
  if 1 ≤ n ∧ n ≤ 3 then
    match line.drop n with
    | c :: rest => if isWS c then some (n, rest) else none
    | [] => none
  else none

/-- `detect_header(line, level)`: with a (nonzero) level the pattern is
`^(#{level})\s(.*)` — exactly `level` hashes followed by whitespace;
with `level=None` (or falsy `0`) the 1–3 range pattern is used. -/
def detect_header (line : List Char) (level : Option Nat := none) :
    Option (Nat × List Char) :=
  match level with
  | some lv =>
    if lv = 0 then detect_header_range line
    else if line.take lv = List.replicate lv '#' then
      match line.drop lv with
      | c :: rest => if isWS c then some (lv, rest) else none
      | [] => none
    else none
  | none => detect_header_range line

/-- Auxiliary scan for `detect_footnote`: having consumed `[^` and at least
one mark character (accumulated reversed in `pre`), find the earliest `]:`
(the lazy `(.+?)]:`) and return the mark and the stripped trailing text. -/
def footnoteScan (pre : List Char) : List Char → Option (List Char × List Char)
  | ']' :: ':' :: rest => some (pre.reverse, strip rest)
  | c :: rest => footnoteScan (c :: pre) rest
  | [] => none

/-- `detect_footnote(line)` for `^\[\^(.+?)]:(.*)` — returns the (nonempty)
mark and the stripped remainder. -/
def detect_footnote (line : List Char) : Option (List Char × List Char) :=
  match line with
  | '[' :: '^' :: c :: rest => footnoteScan [c] rest
  | _ => none

/-- `detect_command(line)` for `^#{4}\s(.*)`: exactly four `#` then one
whitespace character; returns the rest (possibly empty — in Python an
empty result is falsy, see `commandTruthy`). -/
def detect_command (line : List Char) : Option (List Char) :=
  match line with
  | '#' :: '#' :: '#' :: '#' :: c :: rest =>
    if c = '#' then none else if isWS c then some rest else none
  | _ => none

/-- Python truthiness of `detect_command(line)`: a match whose captured
text is the empty string is falsy. -/
def commandTruthy (line : List Char) : Bool :=
  match detect_command line with
  | some s => !s.isEmpty
  | none => false

/-- `is_comment(line)` is `detect_command(line)`; under truthiness tests it
behaves as `commandTruthy`. -/
def is_comment (line : List Char) : Bool := commandTruthy line

/-- `is_equation_dollars(line)`: `line.strip()[:2] == '$$'`. -/
def is_equation_dollars (line : List Char) : Bool :=
  (strip line).take 2 = ['$', '$']

/-- `is_list_item(line)`: nonblank after strip and first stripped char `-`. -/
def is_list_item (line : List Char) : Bool :=
  match strip line with
  | [] => false
  | c :: _ => c = '-'

/-- `is_quote(line)`: nonblank after strip and first stripped char `>`. -/
def is_quote (line : List Char) : Bool :=
  match strip line with
  | [] => false
  | c :: _ => c = '>'

/-- `is_ignore_line(line)`: blank after strip, or a (truthy) comment. -/
def is_ignore_line (line : List Char) : Bool :=
  (strip line).isEmpty || is_comment line

/-- `is_separator_line(line)`: the stripped line is `---`. -/
def is_separator_line (line : List Char) : Bool :=
  strip line = ['-', '-', '-']

/-- `detect_labeled_equation(line)` for ``re.match(r'`eq_label:(\S.*)`', line.strip())``:
the stripped line starts with `` `eq_label: `` followed by a non-whitespace
character; the greedy group extends to the last backtick of the line
(anything may trail it).  Returns `"eq:" + group.strip()`. -/
def detect_labeled_equation (line : List Char) : Option (List Char) :=
  match strip line with
  | '`' :: rest =>
    if rest.take 9 = "eq_label:".data then
      match rest.drop 9 with
      | c :: rest2 =>
        if isWS c then none
        else
          match (rest2.reverse.takeWhile (· ≠ '`')).length, rest2.length with
          | tailLen, len =>
            -- the last '`' of rest2 sits at index len - tailLen - 1 (if any)
            if tailLen < len then
              some ("eq:".data ++ strip (c :: rest2.take (len - tailLen - 1)))
            else none
      | [] => none
    else none
  | _ => none

/-- `is_end_paragraph(line)` — the disjunction used to bound paragraphs
(`detect_command` under Python truthiness). -/
def is_end_paragraph (line : List Char) : Bool :=
  is_ignore_line line || is_separator_line line || is_equation_dollars line ||
  is_list_item line || is_quote line || commandTruthy line ||
  (detect_labeled_equation line).isSome || (detect_header line).isSome

-- Sanity checks against the Python behaviour.
example : detect_header "### x".data = some (3, ['x']) := by decide
example : detect_header "#### x".data = none := by decide
example : detect_header "### x".data (some 2) = none := by decide
example : detect_header "## x".data (some 2) = some (2, ['x']) := by decide
example : detect_footnote "[^1]: note text ".data = some (['1'], "note text".data) := by decide
example : detect_footnote "[^]:m]: t".data = some ("]:m".data, ['t']) := by decide
example : detect_footnote "[^]:x".data = none := by decide
example : commandTruthy "#### ".data = false := by decide
example : commandTruthy "#### x".data = true := by decide
example : detect_labeled_equation "`eq_label:foo`".data = some "eq:foo".data := by decide
example : detect_labeled_equation "`eq_label:foo` junk".data = some "eq:foo".data := by decide
example : detect_labeled_equation "`eq_label: foo`".data = none := by decide
example : detect_labeled_equation "`eq_label:a`b`".data = some "eq:a`b".data := by decide
example : detect_labeled_equation "`eq_label:foo".data = none := by decide
example : is_equation_dollars " $$x".data = true := by decide
example : is_equation_dollars "$ $".data = false := by decide
example : is_end_paragraph "#### ".data = false := by decide

/-- Candidate split points for the greedy figure-name group: indices `j`
with `name = s.take j` of length `> ext.length` ending in `ext` and `]]`
immediately after.  `(.+\.png|.+\.jpg)` is greedy, so the match uses the
largest such `j`. -/
def figSplits (ext : List Char) (s : List Char) : List Nat :=
  (List.range (s.length + 1)).filter (fun j =>
    decide (ext.length < j) && ((s.take j).reverse.take ext.length = ext.reverse) &&
      ((s.drop j).take 2 = ']' :: [']']))

/-- Greedy match of `(.+ext)\]\]` inside the figure pattern: the longest
admissible name, with the remainder after `]]`. -/
def figFind (ext : List Char) (s : List Char) : Option (List Char × List Char) :=
  match (figSplits ext s).getLast? with
  | some j => some (s.take j, s.drop (j + 2))
  | none => none

/-- Python `str.split(' ')`: split on every single space, keeping empties
(so `''.split(' ') == ['']`). -/
def splitSpace : List Char → List (List Char)
  | [] => [[]]
  | ' ' :: rest => [] :: splitSpace rest
  | c :: rest =>
    match splitSpace rest with
    | t :: ts => (c :: t) :: ts
    | [] => [[c]]

/-- `detect_figure(line)` for `^!\[\[(.+\.png|.+\.jpg)\]\](.*)$` on the
stripped line; returns `[name] + settings` where `settings` is `[]` for an
empty trailing group and `group2.split(' ')` otherwise. -/
def detect_figure (line : List Char) : Option (List (List Char)) :=
  match strip line with
  | '!' :: '[' :: '[' :: rest =>
    match figFind ".png".data rest with
    | some (name, after) =>
      some (name :: (if after.isEmpty then [] else splitSpace after))
    | none =>
      match figFind ".jpg".data rest with
      | some (name, after) =>
        some (name :: (if after.isEmpty then [] else splitSpace after))
      | none => none
  | _ => none

/-- Lazy closing search for the figure-caption pattern `` ^`(.*?)`:(.*) ``:
the least `m` with `` rest[m] = '`' `` and `rest[m+1] = ':'`. -/
def capClose : List Char → Option Nat
  | '`' :: ':' :: _ => some 0
  | _ :: rest => (capClose rest).map (· + 1)
  | [] => none

/-- ``re.match(r'^`(.*?)`:(.*)', line)`` — label and caption of the line
following a figure embed (both stripped by the caller's `.strip()`). -/
def captionMatch (line : List Char) : Option (List Char × List Char) :=
  match line with
  | '`' :: rest =>
    match capClose rest with
    | some m => some (strip (rest.take m), strip (rest.drop (m + 2)))
    | none => none
  | _ => none

/-- Relative index of the first line satisfying `expr`, else the length. -/
def fniAux (expr : List Char → Bool) : List (List Char) → Nat
  | [] => 0
  | l :: ls => if expr l then 0 else fniAux expr ls + 1

/-- `find_next_index(lst, expr, start)`: first index `≥ start` whose line
satisfies `expr`, else `len(lst)` (Python's loop over `range(start, len)`). -/
def find_next_index (lst : List (List Char)) (expr : List Char → Bool) (start : Nat) : Nat :=
  if start ≤ lst.length then start + fniAux expr (lst.drop start) else lst.length

theorem fniAux_le (expr : List Char → Bool) : ∀ l : List (List Char), fniAux expr l ≤ l.length := by
  intro l
  induction l with
  | nil => simp [fniAux]
  | cons a as ih =>
    by_cases h : expr a <;> simp [fniAux, h] <;> omega

theorem fniAux_not (expr : List Char → Bool) :
    ∀ (l : List (List Char)) k, k < fniAux expr l → expr (l.getD k []) = false := by
  intro l
  induction l with
  | nil => intro k hk; simp [fniAux] at hk
  | cons a as ih =>
    intro k hk
    by_cases h : expr a
    · simp [fniAux, h] at hk
    · cases k with
      | zero => simpa using h
      | succ k =>
        simp only [fniAux, h, if_neg, Bool.false_eq_true, not_false_iff] at hk
        exact ih k (by omega)

theorem fniAux_hit (expr : List Char → Bool) :
    ∀ l : List (List Char), fniAux expr l < l.length →
      expr (l.getD (fniAux expr l) []) = true := by
  intro l
  induction l with
  | nil => intro hk; simp [fniAux] at hk
  | cons a as ih =>
    intro hk
    by_cases h : expr a
    · simpa [fniAux, h] using h
    · simp only [fniAux, h, if_neg, Bool.false_eq_true, not_false_iff] at hk ⊢
      simpa using ih (by simpa using Nat.lt_of_succ_lt_succ hk)

theorem find_next_index_le (lst : List (List Char)) (expr : List Char → Bool)
    (start : Nat) : find_next_index lst expr start ≤ lst.length := by
  unfold find_next_index
  by_cases h : start ≤ lst.length
  · have hle := fniAux_le expr (lst.drop start)
    rw [List.length_drop] at hle
    simp only [h, if_pos]
    omega
  · simp [h]

theorem find_next_index_ge (lst : List (List Char)) (expr : List Char → Bool)
    (start : Nat) (h : start ≤ lst.length) : start ≤ find_next_index lst expr start := by
  unfold find_next_index
  simp [h]

theorem getD_drop_add (lst : List (List Char)) (start k : Nat) :
    (lst.drop start).getD k [] = lst.getD (start + k) [] := by
  simp [List.getD_eq_getElem?_getD, List.getElem?_drop]

theorem find_next_index_not (lst : List (List Char)) (expr : List Char → Bool)
    (start : Nat) (j : Nat) (h1 : start ≤ j) (h2 : j < find_next_index lst expr start) :
    expr (lst.getD j []) = false := by
  unfold find_next_index at h2
  by_cases h : start ≤ lst.length
  · simp only [h, if_pos] at h2
    have := fniAux_not expr (lst.drop start) (j - start) (by omega)
    rwa [getD_drop_add, Nat.add_sub_cancel' h1] at this
  · simp [h] at h2; omega

theorem find_next_index_hit (lst : List (List Char)) (expr : List Char → Bool)
    (start : Nat) (h2 : find_next_index lst expr start < lst.length) :
    expr (lst.getD (find_next_index lst expr start) []) = true := by
  unfold find_next_index at h2 ⊢
  by_cases h : start ≤ lst.length
  · simp only [h, if_pos] at h2 ⊢
    have hlt : fniAux expr (lst.drop start) < (lst.drop start).length := by
      simp [List.length_drop]; omega
    have := fniAux_hit expr (lst.drop start) hlt
    rwa [getD_drop_add] at this
  · simp [h] at h2

example : find_next_index ["a".data, "$$".data, "b".data] is_equation_dollars 0 = 1 := by decide
example : find_next_index ["a".data] is_equation_dollars 0 = 1 := by decide

example : find_next_index ["a".data, "$$".data, "b".data] is_equation_dollars 0 = 1 := by decide
example : find_next_index ["a".data] is_equation_dollars 1 = 1 := by decide

/-- Modelled from the spec: the concrete block types live in the external
`blocks` module (not part of this core); per the data model they are plain
records of the constructor arguments passed by the scanner.  Field names
follow the constructor keywords used at the call sites in `to_blocks`.
The parent back-reference (set uniformly to the scan's `parent` argument,
never read by the core) is omitted. -/
inductive Block where
  | Section (h_level : Nat) (title : List Char) (content : List (List Char))
      (fig_path : List Char)
  | Equation (content : List (List Char)) (label : Option (List Char))
  | List (content : List (List Char))
  | Quote (content : List (List Char))
  | Figure (settings : List (List Char)) (label : List Char) (caption : List Char)
      (path : List Char)
  | Footnote (footnote_mark : List Char) (content : List (List Char))
  | Paragraph (content : List (List Char))
deriving DecidableEq, Repr

/-- The ways a scan can fail: a failed `assert` (with its message), or an
out-of-range list index (`text_lines[i + 1]` at the end of input). -/
inductive ScanError where
  | assertionError (msg : List Char)
  | indexError
deriving DecidableEq, Repr

deriving instance DecidableEq for Except

/-- Message of the labeled-equation assert. -/
def eqAssertMsg : List Char := "Equation dollars must be alone in a line".data

/-- Message of the figure-caption assert (`settings[0]` is the file name). -/
def figAssertMsg (name : List Char) : List Char :=
  "Caption of figure <".data ++ name ++ "> badly formed".data

/-- `line.lstrip('> ')` used for quote content. -/
def quoteStrip (l : List Char) : List Char := l.dropWhile (fun c => c = '>' || c = ' ')

/-- One iteration of the `to_blocks` scan loop at position `i` (`i <
len(text_lines)`): the detector chain in source order.  Returns the
produced block (`none` for the ignore/separator skips), whether the
separator toggles the ignore flag, and the next scan position. -/
def scanStep (tl : List (List Char)) (figp : List Char) (i : Nat) :
    Except ScanError (Option Block × Bool × Nat) :=
  let line := tl.getD i []
  if is_ignore_line line then .ok (none, false, i + 1)
  else if is_separator_line line then .ok (none, true, i + 1)
  else match detect_header line with
  | some hd =>
    let endi := find_next_index tl (fun l => (detect_header l (some hd.1)).isSome) (i + 1)
    .ok (some (.Section hd.1 hd.2 ((tl.drop (i + 1)).take (endi - (i + 1))) figp),
      false, endi)
  | none =>
    if is_equation_dollars line then
      let endi := find_next_index tl is_equation_dollars (i + 1)
      .ok (some (.Equation ((tl.drop (i + 1)).take (endi - (i + 1))) none), false, endi + 1)
    else match detect_labeled_equation line with
    | some label =>
      if i + 1 < tl.length then
        if is_equation_dollars (tl.getD (i + 1) []) then
          let endi := find_next_index tl is_equation_dollars (i + 2)
          .ok (some (.Equation ((tl.drop (i + 2)).take (endi - (i + 2))) (some label)),
            false, endi + 1)
        else .error (.assertionError eqAssertMsg)
      else .error .indexError
    | none =>
      if is_list_item line then
        let endi := find_next_index tl (fun l => !is_list_item l) (i + 1)
        .ok (some (.List ((tl.drop i).take (endi - i))), false, endi)
      else if is_quote line then
        let endi := find_next_index tl (fun l => !is_quote l) (i + 1)
        .ok (some (.Quote (((tl.drop i).take (endi - i)).map quoteStrip)), false, endi)
      else match detect_figure line with
      | some settings =>
        if i + 1 < tl.length then
          match captionMatch (tl.getD (i + 1) []) with
          | some lc => .ok (some (.Figure settings lc.1 lc.2 figp), false, i + 2)
          | none => .error (.assertionError (figAssertMsg (settings.headD [])))
        else .error .indexError
      | none =>
        match detect_footnote line with
        | some fm => .ok (some (.Footnote fm.1 [fm.2]), false, i + 1)
        | none =>
          let endi := find_next_index tl is_end_paragraph (i + 1)
          .ok (some (.Paragraph ((tl.drop i).take (endi - i))), false, endi)

/-- Every successful scan step strictly advances the pointer (and keeps it
within `len + 1` of the input). -/
theorem scanStep_lt (tl : List (List Char)) (figp : List Char) (i : Nat)
    (h : i < tl.length) {b : Option Block} {t : Bool} {i' : Nat}
    (hs : scanStep tl figp i = .ok (b, t, i')) : i < i' := by
  have g1 : i + 1 ≤ tl.length := h
  unfold scanStep at hs
  simp only at hs
  split at hs
  · exact (by cases hs; omega)
  · split at hs
    · cases hs; omega
    · split at hs
      · rename_i hd heq
        cases hs
        have := find_next_index_ge tl (fun l => (detect_header l (some hd.1)).isSome) (i + 1) g1
        omega
      · split at hs
        · cases hs
          have := find_next_index_ge tl is_equation_dollars (i + 1) g1
          omega
        · split at hs
          · split at hs
            · split at hs
              · cases hs
                rename_i hlt _
                have g3 : i + 2 ≤ tl.length := by omega
                have := find_next_index_ge tl is_equation_dollars (i + 2) g3
                omega
              · cases hs
            · cases hs
          · split at hs
            · cases hs
              have := find_next_index_ge tl (fun l => !is_list_item l) (i + 1) g1
              omega
            · split at hs
              · cases hs
                have := find_next_index_ge tl (fun l => !is_quote l) (i + 1) g1
                omega
              · split at hs
                · split at hs
                  · split at hs
                    · cases hs; omega
                    · cases hs
                  · cases hs
                · split at hs
                  · cases hs; omega
                  · cases hs
                    have := find_next_index_ge tl is_end_paragraph (i + 1) g1
                    omega

/-- Result of a whole scan: the emitted blocks and whether the non-fatal
mismatched-separator diagnostic fires (the ignore flag is still set at the
end of input). -/
structure ScanResult where
  blocks : List Block
  warned : Bool
deriving DecidableEq, Repr

/-- The `while i < len(text_lines)` loop of `to_blocks`, starting from flag
`ign` and position `i`.  Returns the emitted blocks (a produced block is
appended only when the ignore flag is `false` at production time), the
final flag, and — for the coverage invariant — the list of consumed line
ranges `(i, inext)`, one per iteration.  The next position is written
`max i' (i + 1)`; by `scanStep_lt` a successful step always has
`i < i'`, so this equals `i'` and only serves the termination measure. -/
def to_blocks_loop (tl : List (List Char)) (figp : List Char) (ign : Bool) (i : Nat) :
    Except ScanError (List Block × Bool × List (Nat × Nat)) :=
  if i < tl.length then
    match scanStep tl figp i with
    | .error e => .error e
    | .ok (blk?, toggled, i') =>
      let inext := max i' (i + 1)
      match to_blocks_loop tl figp (if toggled then !ign else ign) inext with
      | .error e => .error e
      | .ok (blks, w, ivs) =>
        .ok ((match blk? with
              | some b => if ign then blks else b :: blks
              | none => blks), w, (i, inext) :: ivs)
  else .ok ([], ign, [])
termination_by tl.length - i
decreasing_by omega

/-- `to_blocks(text_lines, fig_path)` (list-of-lines entry point; a string
argument is split into lines before this loop in the source). -/
def to_blocks (tl : List (List Char)) (figp : List Char) : Except ScanError ScanResult :=
  match to_blocks_loop tl figp false 0 with
  | .error e => .error e
  | .ok (blks, w, _) => .ok ⟨blks, w⟩

/-- Instrumented variant of the scan loop that records every produced
block together with the ignore flag at its production time (instead of
filtering). -/
def scanAll (tl : List (List Char)) (figp : List Char) (ign : Bool) (i : Nat) :
    Except ScanError (List (Block × Bool) × Bool × List (Nat × Nat)) :=
  if i < tl.length then
    match scanStep tl figp i with
    | .error e => .error e
    | .ok (blk?, toggled, i') =>
      let inext := max i' (i + 1)
      match scanAll tl figp (if toggled then !ign else ign) inext with
      | .error e => .error e
      | .ok (blks, w, ivs) =>
        .ok ((match blk? with
              | some b => (b, ign) :: blks
              | none => blks), w, (i, inext) :: ivs)
  else .ok ([], ign, [])
termination_by tl.length - i
decreasing_by omega

/-- Fuel-indexed twin of `to_blocks_loop` (structurally recursive, hence
kernel-evaluable).  One fuel unit is spent per loop iteration; since the
pointer strictly increases, `tl.length - i` units always suffice
(`to_blocks_fuel_eq`), so the fuel-exhausted branch is never reached for
such fuel. -/
def to_blocks_fuel (tl : List (List Char)) (figp : List Char) :
    Nat → Bool → Nat → Except ScanError (List Block × Bool × List (Nat × Nat))
  | 0, ign, _ => .ok ([], ign, [])
  | fuel + 1, ign, i =>
    if i < tl.length then
      match scanStep tl figp i with
      | .error e => .error e
      | .ok (blk?, toggled, i') =>
        let inext := max i' (i + 1)
        match to_blocks_fuel tl figp fuel (if toggled then !ign else ign) inext with
        | .error e => .error e
        | .ok (blks, w, ivs) =>
          .ok ((match blk? with
                | some b => if ign then blks else b :: blks
                | none => blks), w, (i, inext) :: ivs)
    else .ok ([], ign, [])

theorem to_blocks_fuel_eq (tl : List (List Char)) (figp : List Char) :
    ∀ (fuel : Nat) (ign : Bool) (i : Nat), tl.length ≤ i + fuel →
      to_blocks_fuel tl figp fuel ign i = to_blocks_loop tl figp ign i := by
  intro fuel
  induction fuel with
  | zero =>
    intro ign i hf
    rw [to_blocks_loop, to_blocks_fuel]
    have : ¬ i < tl.length := by omega
    simp [this]
  | succ fuel ih =>
    intro ign i hf
    rw [to_blocks_loop, to_blocks_fuel]
    by_cases h : i < tl.length
    · simp only [h, if_pos]
      cases hs : scanStep tl figp i with
      | error e => rfl
      | ok v =>
        obtain ⟨blk?, toggled, i'⟩ := v
        simp only [ih (if toggled then !ign else ign) (max i' (i + 1)) (by omega)]
    · simp [h]

/-- Kernel-evaluable form of `to_blocks` (via the fuel twin). -/
theorem to_blocks_eval (tl : List (List Char)) (figp : List Char) :
    to_blocks tl figp =
      (match to_blocks_fuel tl figp tl.length false 0 with
       | .error e => .error e
       | .ok (blks, w, _) => .ok ⟨blks, w⟩) := by
  rw [to_blocks, to_blocks_fuel_eq tl figp tl.length false 0 (by omega)]

example : to_blocks ["# Title".data, "Body line".data] [] =
    .ok ⟨[.Section 1 "Title".data ["Body line".data] []], false⟩ := by
  rw [to_blocks_eval]; decide

/-! ## Inline transformer (`format_text`)

Each regex operation of the source is embedded as an explicit scanner with
the exact leftmost/lazy/greedy/backtracking behaviour of the pattern.
Input lines contain no newline (the caller splits on line boundaries), so
`.` never meets its no-newline restriction.  The scanners recurse
structurally on the text, carrying a pending-skip counter to jump over an
already-replaced match (`f (skip+1) (c :: rest) = f skip rest`). -/

/-- Index of the first occurrence of character `c`. -/
def findIdxOf (c : Char) : List Char → Option Nat
  | [] => none
  | a :: rest => if a = c then some 0 else (findIdxOf c rest).map (· + 1)

/-- Index of the first occurrence of `pat` as a contiguous substring. -/
def findSubstrIdx (pat : List Char) : List Char → Option Nat
  | [] => if pat.isEmpty then some 0 else none
  | c :: rest =>
    if (c :: rest).take pat.length = pat then some 0
    else (findSubstrIdx pat rest).map (· + 1)

/-- `re.findall` and `re.sub` for a lazy delimited-span pattern
`open.*?close` (with `open = o :: os`): scan left to right; at each
occurrence of the opening delimiter take the match up to the first
occurrence of the closing delimiter (lazy `.*?`), else advance one
position.  Returns the list of matches and the line with each match
replaced by `repl`. -/
def delimGo (o : Char) (os cl repl : List Char) : Nat → List Char → List (List Char) × List Char
  | skip + 1, _ :: rest => delimGo o os cl repl skip rest
  | _ + 1, [] => ([], [])
  | 0, [] => ([], [])
  | 0, c :: rest =>
    if c = o ∧ rest.take os.length = os then
      match findSubstrIdx cl (rest.drop os.length) with
      | some q =>
        let middle := (rest.drop os.length).take q
        let r := delimGo o os cl repl (os.length + q + cl.length) rest
        (((o :: os) ++ middle ++ cl) :: r.1, repl ++ r.2)
      | none =>
        let r := delimGo o os cl repl 0 rest
        (r.1, c :: r.2)
    else
      let r := delimGo o os cl repl 0 rest
      (r.1, c :: r.2)

/-- The matches of the pattern on a line (`re.findall`). -/
def findSpans (o : Char) (os cl : List Char) (s : List Char) : List (List Char) :=
  (delimGo o os cl [] 0 s).1

/-- The line with every match replaced (`re.sub`, constant replacement). -/
def subSpans (o : Char) (os cl repl : List Char) (s : List Char) : List Char :=
  (delimGo o os cl repl 0 s).2

/-- `'<EQ-PLACEHOLDER>'`. -/
def eqPH : List Char := "<EQ-PLACEHOLDER>".data
/-- `'<LINK-PLACEHOLDER>'`. -/
def linkPH : List Char := "<LINK-PLACEHOLDER>".data
/-- `'<CODE-PLACEHOLDER>'`. -/
def codePH : List Char := "<CODE-PLACEHOLDER>".data

/-- `LATEX_SPECIAL_CHARS = r'$%_}&#{'` (in source order). -/
def LATEX_SPECIAL_CHARS : List Char := ['$', '%', '_', '\x7d', '&', '#', '\x7b']

/-- `str.replace(c, '\' + c)`: escape every occurrence of one character. -/
def escapeChar (c : Char) (s : List Char) : List Char :=
  s.foldr (fun x acc => if x = c then '\\' :: c :: acc else x :: acc) []

/-- The special-character escaping loop of `format_text`. -/
def escapeSpecials (s : List Char) : List Char :=
  LATEX_SPECIAL_CHARS.foldl (fun acc c => escapeChar c acc) s

/-- Largest index `q` with `l[q] = ']'` not followed by another `]`
(the greedy `\[.*]` group end with its `(?!])` lookahead). -/
def lastCloseIdx : List Char → Option Nat
  | [] => none
  | c :: rest =>
    match lastCloseIdx rest with
    | some q => some (q + 1)
    | none => if c = ']' ∧ rest.headD ' ' ≠ ']' then some 0 else none

/-- The bracket-guard substitution `re.sub(r'(?<!\[)(\[.*])(?!])', r'{\1}', s)`:
at a `[` not preceded by `[`, wrap up to the last `]` not followed by `]`;
`afterOpen` tracks whether the previous original character was `[`. -/
def bracketGuardGo (afterOpen : Bool) : Nat → List Char → List Char
  | skip + 1, _ :: rest => bracketGuardGo afterOpen skip rest
  | _ + 1, [] => []
  | 0, [] => []
  | 0, c :: rest =>
    if c = '[' then
      if afterOpen then '[' :: bracketGuardGo true 0 rest
      else
        match lastCloseIdx rest with
        | some q =>
          '\x7b' :: '[' :: (rest.take (q + 1)) ++ '\x7d' :: bracketGuardGo false (q + 1) rest
        | none => '[' :: bracketGuardGo true 0 rest
    else c :: bracketGuardGo false 0 rest

/-- Bracket-guard stage on a whole line (no character precedes position 0). -/
def bracketGuard (s : List Char) : List Char := bracketGuardGo false 0 s

/-- `str.replace(pat, repl, 1)`: replace the first occurrence only. -/
def replaceFirst (pat repl s : List Char) : List Char :=
  match findSubstrIdx pat s with
  | some q => s.take q ++ repl ++ s.drop (q + pat.length)
  | none => s

/-- The restore loops: each queued span replaces the next (first remaining)
occurrence of its placeholder, in queue order (FIFO). -/
def restoreAll (pat : List Char) (items : List (List Char)) (s : List Char) : List Char :=
  items.foldl (fun acc item => replaceFirst pat item acc) s

example : findSpans '$' [] ['$'] "a$b$c$d$".data = ["$b$".data, "$d$".data] := by decide
example : subSpans '$' [] ['$'] "X".data "a$b$c$d$".data = "aXcX".data := by decide
example : findSpans '[' ['['] (']' :: [']']) "a [[x]] b".data = ["[[x]]".data] := by decide
example : escapeSpecials "a_b".data = "a\\_b".data := by decide
example : bracketGuard "a [x] b".data = ("a \x7b[x]\x7d b").data := by decide
example : bracketGuard "a [[x]] b".data = ("a \x7b[[x]]\x7d b").data := by decide
example : bracketGuard "[a] and [b]".data = ("\x7b[a] and [b]\x7d").data := by decide
example : replaceFirst "ab".data "X".data "cabab".data = "cXab".data := by decide

/-- The character class `[18|19|20]` of the citation patterns — a class of
the six characters `1 8 | 9 2 0`, not an alternation of year prefixes. -/
def citeClassChar (c : Char) : Bool :=
  c = '1' || c = '8' || c = '|' || c = '9' || c = '2' || c = '0'

/-- Full match of the citation-key body `\w+[18|19|20]\d{2}\w*` against a
whole backtick-span text `t` (the closing backtick forces the group to
cover all of `t`). -/
def matchesCiteKey (t : List Char) : Bool :=
  (List.range t.length).any (fun k =>
    decide (1 ≤ k) && (t.take k).all isWordChar && citeClassChar (t.getD k ' ') &&
    (t.getD (k + 1) ' ').isDigit && (t.getD (k + 2) ' ').isDigit &&
    (t.drop (k + 3)).all isWordChar)

/-- ``re.sub(r'`(\w+[18|19|20]\d{2}\w*)`', r'[[\1]]', s)``: since the group
cannot contain a backtick, each candidate span runs to the next backtick;
matching spans become `[[...]]`, others are left and scanning resumes
after the opening backtick. -/
def citeNormGo : Nat → List Char → List Char
  | skip + 1, _ :: rest => citeNormGo skip rest
  | _ + 1, [] => []
  | 0, [] => []
  | 0, c :: rest =>
    if c = '`' then
      match findIdxOf '`' rest with
      | some q =>
        if matchesCiteKey (rest.take q) then
          '[' :: '[' :: (rest.take q) ++ ']' :: ']' :: citeNormGo (q + 1) rest
        else '`' :: citeNormGo 0 rest
      | none => '`' :: citeNormGo 0 rest
    else c :: citeNormGo 0 rest

/-- The citation-normalize stage on a whole line. -/
def citeNormalize (s : List Char) : List Char := citeNormGo 0 s

/-- `[n, n-1, …, 1]`: the candidate lengths of a greedy `\w+`, longest
first. -/
def greedyDesc (n : Nat) : List Nat := (List.range n).map (fun d => n - d)

/-- The separator class `[,|\s]` of the citation-join pattern. -/
def sepClass (c : Char) : Bool := c = ',' || c = '|' || isWS c

/-- Backtracking match of the citation-join pattern
`(\w+[18|19|20]\d{2}\w*?)\]\][,|\s]{0,2}\[\[(\w+[18|19|20]\d{2}\w*?)`
anchored at the start of `u`, in engine order: greedy `\w+` longest first,
lazy `\w*?` shortest first, greedy separator count `2,1,0`, and the final
lazy `\w*?` empty.  Returns both groups and the total matched length. -/
def matchJoinAt (u : List Char) : Option (List Char × List Char × Nat) :=
  (greedyDesc ((u.takeWhile isWordChar).length)).findSome? (fun j =>
    if citeClassChar (u.getD j ' ') && (u.getD (j + 1) ' ').isDigit &&
        (u.getD (j + 2) ' ').isDigit then
      let v := u.drop (j + 3)
      (List.range ((v.takeWhile isWordChar).length + 1)).findSome? (fun m =>
        if (v.drop m).take 2 = [']', ']'] then
          let w := v.drop (m + 2)
          ([2, 1, 0] : List Nat).findSome? (fun k =>
            if decide (k ≤ w.length) && (w.take k).all sepClass &&
                ((w.drop k).take 2 = ['[', '[']) then
              let x := w.drop (k + 2)
              (greedyDesc ((x.takeWhile isWordChar).length)).findSome? (fun j2 =>
                if citeClassChar (x.getD j2 ' ') && (x.getD (j2 + 1) ' ').isDigit &&
                    (x.getD (j2 + 2) ' ').isDigit then
                  some (u.take (j + 3 + m), x.take (j2 + 3),
                    j + 3 + m + 2 + k + 2 + j2 + 3)
                else none)
            else none)
        else none)
    else none)

theorem findSome?_some_ex {α β : Type} {f : α → Option β} :
    ∀ {l : List α} {b : β}, l.findSome? f = some b → ∃ a ∈ l, f a = some b := by
  intro l
  induction l with
  | nil => intro b h; simp [List.findSome?] at h
  | cons a as ih =>
    intro b h
    rw [List.findSome?] at h
    cases hfa : f a with
    | some v =>
      simp only [hfa] at h
      exact ⟨a, by simp, by rw [hfa, h]⟩
    | none =>
      simp only [hfa] at h
      obtain ⟨x, hx, hfx⟩ := ih h
      exact ⟨x, by simp [hx], hfx⟩

theorem getD_default_of_le {l : List Char} {i : Nat} (d : Char) (h : l.length ≤ i) :
    l.getD i d = d := by
  rw [List.getD_eq_getElem?_getD, List.getElem?_eq_none h]
  rfl

/-- Inversion of `matchJoinAt`: the shape of a successful match.  In
particular the match fits inside `u` and replacing it by
`g1 ++ ',' ++ g2` removes at least three characters. -/
theorem matchJoinAt_some {u : List Char} {g1 g2 : List Char} {n : Nat}
    (h : matchJoinAt u = some (g1, g2, n)) :
    ∃ j m k j2, n = j + 3 + m + 2 + k + 2 + j2 + 3 ∧
      g1 = u.take (j + 3 + m) ∧
      g2 = (((u.drop (j + 3)).drop (m + 2)).drop (k + 2)).take (j2 + 3) ∧
      n ≤ u.length ∧ 1 ≤ j := by
  unfold matchJoinAt at h
  obtain ⟨j, hj, h⟩ := findSome?_some_ex h
  simp only at h
  split at h
  case isFalse => exact absurd h (by simp)
  case isTrue hc1 =>
  obtain ⟨m, hm, h⟩ := findSome?_some_ex h
  split at h
  case isFalse => exact absurd h (by simp)
  case isTrue hc2 =>
  obtain ⟨k, hk, h⟩ := findSome?_some_ex h
  split at h
  case isFalse => exact absurd h (by simp)
  case isTrue hc3 =>
  obtain ⟨j2, hj2, h⟩ := findSome?_some_ex h
  split at h
  case isFalse => exact absurd h (by simp)
  case isTrue hc4 =>
  have hj1 : 1 ≤ j := by
    have : j ∈ greedyDesc ((u.takeWhile isWordChar).length) := hj
    simp only [greedyDesc, List.mem_map, List.mem_range] at this
    obtain ⟨d, hd, rfl⟩ := this
    omega
  have hdig : ((((u.drop (j + 3)).drop (m + 2)).drop (k + 2)).getD (j2 + 2) ' ').isDigit = true := by
    simp only [Bool.and_eq_true] at hc4
    exact hc4.2
  have hfit : j + 3 + m + 2 + k + 2 + j2 + 3 ≤ u.length := by
    by_contra hgt
    push_neg at hgt
    have hlen : (((u.drop (j + 3)).drop (m + 2)).drop (k + 2)).length ≤ j2 + 2 := by
      simp only [List.length_drop]
      omega
    rw [getD_default_of_le ' ' hlen] at hdig
    simp [Char.isDigit] at hdig
  cases h
  exact ⟨j, m, k, j2, rfl, rfl, rfl, hfit, hj1⟩

/-- One pass of the citation-join substitution (`re.sub` replaces every
non-overlapping match, scanning left to right): a match is replaced by
`group1 ++ ',' ++ group2` and scanning resumes after the match. -/
def joinGo : Nat → List Char → List Char
  | skip + 1, _ :: rest => joinGo skip rest
  | _ + 1, [] => []
  | 0, [] => []
  | 0, c :: rest =>
    match matchJoinAt (c :: rest) with
    | some r => r.1 ++ ',' :: r.2.1 ++ joinGo (r.2.2 - 1) rest
    | none => c :: joinGo 0 rest

/-- One join-substitution pass on a whole line. -/
def joinSubGo (s : List Char) : List Char := joinGo 0 s

theorem joinGo_len_le : ∀ (s : List Char) (k : Nat), (joinGo k s).length ≤ s.length - k := by
  intro s
  induction s with
  | nil => intro k; cases k <;> simp [joinGo]
  | cons c rest ih =>
    intro k
    cases k with
    | succ k =>
      rw [joinGo]
      have := ih k
      simp only [List.length_cons]
      omega
    | zero =>
      rw [joinGo]
      cases heq : matchJoinAt (c :: rest) with
      | none =>
        simp only [List.length_cons]
        have := ih 0
        omega
      | some r =>
        obtain ⟨g1, g2, n⟩ := r
        obtain ⟨j, m, k', j2, hn, hg1, hg2, hfit, hj1⟩ := matchJoinAt_some heq
        have h1 : g1.length ≤ j + 3 + m := by rw [hg1]; simp [List.length_take]
        have h2 : g2.length ≤ j2 + 3 := by rw [hg2]; simp [List.length_take]
        have h3 := ih (n - 1)
        simp only [List.length_append, List.length_cons] at *
        omega

theorem joinSubGo_len_le (s : List Char) : (joinSubGo s).length ≤ s.length := by
  have := joinGo_len_le s 0
  simpa [joinSubGo] using this

theorem joinSubGo_lt_of_ne : ∀ s : List Char, joinSubGo s ≠ s → (joinSubGo s).length < s.length := by
  intro s
  induction s with
  | nil => intro hne; simp [joinSubGo, joinGo] at hne
  | cons c rest ih =>
    intro hne
    rw [joinSubGo, joinGo] at hne ⊢
    cases heq : matchJoinAt (c :: rest) with
    | some r =>
      obtain ⟨g1, g2, n⟩ := r
      obtain ⟨j, m, k', j2, hn, hg1, hg2, hfit, hj1⟩ := matchJoinAt_some heq
      have h1 : g1.length ≤ j + 3 + m := by rw [hg1]; simp [List.length_take]
      have h2 : g2.length ≤ j2 + 3 := by rw [hg2]; simp [List.length_take]
      have h3 := joinGo_len_le rest (n - 1)
      simp only [heq, List.length_append, List.length_cons] at *
      omega
    | none =>
      rw [heq] at hne
      simp only at hne ⊢
      simp only [List.length_cons]
      have hrec : joinGo 0 rest ≠ rest := by
        intro hc
        exact hne (by rw [hc])
      have := ih (by simpa [joinSubGo] using hrec)
      simp only [joinSubGo] at this
      omega

/-- The `while joining:` fixed-point loop of the citation merge: repeat the
substitution until the length stops changing.  Termination: any actual
substitution strictly shortens the line (`joinSubGo_lt_of_ne`). -/
def joinFix (s : List Char) : List Char :=
  if (joinSubGo s).length ≠ s.length then joinFix (joinSubGo s) else joinSubGo s
termination_by s.length
decreasing_by
  have hle := joinSubGo_len_le s
  rename_i h
  have hlt := joinSubGo_lt_of_ne s (by intro hc; exact h (by rw [hc]))
  omega

/-- Fuel twin of `joinFix` for kernel evaluation; `s.length + 1` units of
fuel always suffice (`joinFix_eq_fuel`). -/
def joinFixF : Nat → List Char → List Char
  | 0, s => s
  | fuel + 1, s =>
    if (joinSubGo s).length ≠ s.length then joinFixF fuel (joinSubGo s) else joinSubGo s

theorem joinFixF_eq (fuel : Nat) : ∀ s : List Char, s.length < fuel → joinFixF fuel s = joinFix s := by
  induction fuel with
  | zero => intro s h; omega
  | succ fuel ih =>
    intro s h
    rw [joinFixF, joinFix]
    by_cases hch : (joinSubGo s).length ≠ s.length
    · have hlt : (joinSubGo s).length < s.length :=
        joinSubGo_lt_of_ne s (by intro hc; exact hch (by rw [hc]))
      rw [if_pos hch, if_pos hch]
      exact ih (joinSubGo s) (by omega)
    · rw [if_neg hch, if_neg hch]

/-- Backtracking match of the inner citation-lowering group
`\w+[18|19|20]\d{2}\S*?` followed by `]]` (pattern
`\[\[(\w+[18|19|20]\d{2}\S*?)\]\]`), anchored at the start of `x`, which
is the text after `[[`.  Returns (group length, consumed length). -/
def matchCiteInner (x : List Char) : Option (Nat × Nat) :=
  (greedyDesc ((x.takeWhile isWordChar).length)).findSome? (fun j =>
    if citeClassChar (x.getD j ' ') && (x.getD (j + 1) ' ').isDigit &&
        (x.getD (j + 2) ' ').isDigit then
      let v := x.drop (j + 3)
      (List.range ((v.takeWhile (fun c => !isWS c)).length + 1)).findSome? (fun m =>
        if (v.drop m).take 2 = [']', ']'] then some (j + 3 + m, j + 3 + m + 2) else none)
    else none)

/-- ``re.sub(r'\[\[(\w+[18|19|20]\d{2}\S*?)\]\]', r'\\cite{\1}', s)``. -/
def citeLowGo : Nat → List Char → List Char
  | skip + 1, _ :: rest => citeLowGo skip rest
  | _ + 1, [] => []
  | 0, [] => []
  | 0, c :: rest =>
    if c = '[' ∧ rest.head? = some '[' then
      match matchCiteInner rest.tail with
      | some gc =>
        "\\cite\x7b".data ++ rest.tail.take gc.1 ++ '\x7d' :: citeLowGo (1 + gc.2) rest
      | none => c :: citeLowGo 0 rest
    else c :: citeLowGo 0 rest

/-- Match of `` `(pre\S*?)` `` starting after an opening backtick: the text
must begin with `pre`, and the lazy `\S*?` runs to the first backtick
reachable through non-whitespace characters. -/
def refMatch (pre : List Char) (x : List Char) : Option (List Char × Nat) :=
  if x.take pre.length = pre then
    let v := x.drop pre.length
    let run := v.takeWhile (fun c => !isWS c && c ≠ '`')
    match v.drop run.length with
    | '`' :: _ => some (pre ++ run, pre.length + run.length + 1)
    | _ => none
  else none

/-- ``re.sub(r'`(pre\S*?)`', r'\\ref{\1}', s)`` for `pre` one of
`fig:`, `eq:`. -/
def refGo (pre : List Char) : Nat → List Char → List Char
  | skip + 1, _ :: rest => refGo pre skip rest
  | _ + 1, [] => []
  | 0, [] => []
  | 0, c :: rest =>
    if c = '`' then
      match refMatch pre rest with
      | some gc => "\\ref\x7b".data ++ gc.1 ++ '\x7d' :: refGo pre gc.2 rest
      | none => '`' :: refGo pre 0 rest
    else c :: refGo pre 0 rest

/-- ``re.sub(r'`(.*?)`', r'\\texttt{\1}', s)``: lazy span to the next
backtick. -/
def monoGo : Nat → List Char → List Char
  | skip + 1, _ :: rest => monoGo skip rest
  | _ + 1, [] => []
  | 0, [] => []
  | 0, c :: rest =>
    if c = '`' then
      match findIdxOf '`' rest with
      | some q => "\\texttt\x7b".data ++ rest.take q ++ '\x7d' :: monoGo (q + 1) rest
      | none => '`' :: monoGo 0 rest
    else c :: monoGo 0 rest

/-- Lazy closing search for `"\*(?!\*)` of the quoted-italic pattern:
least `m` such that `u[m] = '"'`, `u[m+1] = '*'` and `u[m+2]` is absent or
not `*`. -/
def tqClose : List Char → Option Nat
  | a :: rest =>
    if a = '"' ∧ rest.head? = some '*' ∧ rest.tail.headD ' ' ≠ '*' then some 0
    else (tqClose rest).map (· + 1)
  | [] => none

/-- ``re.sub(r'(?<!\*)\*"([^\*].*?)"\*(?!\*)', r'\\textquote{\1}', s)``;
`prevStar` tracks whether the preceding original character was `*` (the
`(?<!\*)` lookbehind). -/
def tqGo (prevStar : Bool) : Nat → List Char → List Char
  | skip + 1, _ :: rest => tqGo prevStar skip rest
  | _ + 1, [] => []
  | 0, [] => []
  | 0, c :: rest =>
    if c = '*' then
      if prevStar then '*' :: tqGo true 0 rest
      else
        match rest with
        | c1 :: c0 :: rest2 =>
          if c1 = '"' ∧ c0 ≠ '*' then
            match tqClose rest2 with
            | some m =>
              "\\textquote\x7b".data ++ c0 :: rest2.take m ++ '\x7d' :: tqGo true (2 + m + 2) rest
            | none => '*' :: tqGo true 0 rest
          else '*' :: tqGo true 0 rest
        | _ => '*' :: tqGo true 0 rest
    else c :: tqGo false 0 rest

/-- Lazy closing search for `\*(?!\*)` of the italic pattern: least `m`
with `u[m] = '*'` and `u[m+1]` absent or not `*`. -/
def italClose : List Char → Option Nat
  | '*' :: rest =>
    if rest.headD ' ' ≠ '*' then some 0 else (italClose rest).map (· + 1)
  | _ :: rest => (italClose rest).map (· + 1)
  | [] => none

/-- ``re.sub(r'(?<!\*)\*([^\*].*?)\*(?!\*)', r'\\textit{\1}', s)``. -/
def italGo (prevStar : Bool) : Nat → List Char → List Char
  | skip + 1, _ :: rest => italGo prevStar skip rest
  | _ + 1, [] => []
  | 0, [] => []
  | 0, c :: rest =>
    if c = '*' then
      if prevStar then '*' :: italGo true 0 rest
      else
        match rest with
        | c0 :: rest2 =>
          if c0 ≠ '*' then
            match italClose rest2 with
            | some m =>
              "\\textit\x7b".data ++ c0 :: rest2.take m ++ '\x7d' :: italGo true (1 + m + 1) rest
            | none => '*' :: italGo true 0 rest
          else '*' :: italGo true 0 rest
        | [] => '*' :: italGo true 0 rest
    else c :: italGo false 0 rest

/-- Least `m` with `u[m] = d` and `u[m+1] = d` (closing `dd` of the
bold/highlight patterns; the lazy group may swallow single `d`s). -/
def findPairClose (d : Char) : List Char → Option Nat
  | a :: rest => if a = d ∧ rest.head? = some d then some 0 else (findPairClose d rest).map (· + 1)
  | [] => none

/-- ``re.sub(r'\*\*([^\*].*?)\*\*', r'\\textbf{\1}', s)`` and
``re.sub(r'==([^=].*?)==', r'\\hl{\1}', s)``: double-delimiter emphasis
with delimiter `d` and command prefix `cmd` (no lookarounds). -/
def emphGo (d : Char) (cmd : List Char) : Nat → List Char → List Char
  | skip + 1, _ :: rest => emphGo d cmd skip rest
  | _ + 1, [] => []
  | 0, [] => []
  | 0, a :: rest =>
    if a = d then
      match rest with
      | b :: c0 :: rest2 =>
        if b = d ∧ c0 ≠ d then
          match findPairClose d rest2 with
          | some m => cmd ++ c0 :: rest2.take m ++ '\x7d' :: emphGo d cmd (2 + m + 2) rest
          | none => a :: emphGo d cmd 0 rest
        else a :: emphGo d cmd 0 rest
      | _ => a :: emphGo d cmd 0 rest
    else a :: emphGo d cmd 0 rest

/-- `format_text` on one line: the full inline-transformer pipeline in
source order — protect (math, links, code), escape, bracket-guard,
restore (links, math, code), citation normalize, citation join to a fixed
point, citation lower, figure and equation reference lower, monospace,
quoted italic, italic, bold, highlight. -/
def format_line (s0 : List Char) : List Char :=
  let equations := findSpans '$' [] ['$'] s0
  let links := findSpans '[' ['['] (']' :: [']']) s0
  let codes := findSpans '`' [] ['`'] s0
  let s1 := subSpans '$' [] ['$'] eqPH s0
  let s2 := subSpans '[' ['['] (']' :: [']']) linkPH s1
  let s3 := subSpans '`' [] ['`'] codePH s2
  let s4 := escapeSpecials s3
  let s5 := bracketGuard s4
  let s6 := restoreAll linkPH links s5
  let s7 := restoreAll eqPH equations s6
  let s8 := restoreAll codePH codes s7
  let s9 := citeNormalize s8
  let s10 := joinFix s9
  let s11 := citeLowGo 0 s10
  let s12 := refGo "fig:".data 0 s11
  let s13 := refGo "eq:".data 0 s12
  let s14 := monoGo 0 s13
  let s15 := tqGo false 0 s14
  let s16 := italGo false 0 s15
  let s17 := emphGo '*' "\\textbf\x7b".data 0 s16
  let s18 := emphGo '=' "\\hl\x7b".data 0 s17
  s18

/-- `format_text(text_lines)`: the per-line transformation (the source's
`deepcopy` and in-place loop amount to a map). -/
def format_text (lines : List (List Char)) : List (List Char) := lines.map format_line

/-- Kernel-evaluable form of `format_line`: the same pipeline with the
fixed-point loop run on sufficient fuel. -/
def format_lineF (s0 : List Char) : List Char :=
  let equations := findSpans '$' [] ['$'] s0
  let links := findSpans '[' ['['] (']' :: [']']) s0
  let codes := findSpans '`' [] ['`'] s0
  let s1 := subSpans '$' [] ['$'] eqPH s0
  let s2 := subSpans '[' ['['] (']' :: [']']) linkPH s1
  let s3 := subSpans '`' [] ['`'] codePH s2
  let s4 := escapeSpecials s3
  let s5 := bracketGuard s4
  let s6 := restoreAll linkPH links s5
  let s7 := restoreAll eqPH equations s6
  let s8 := restoreAll codePH codes s7
  let s9 := citeNormalize s8
  let s10 := joinFixF (s9.length + 1) s9
  let s11 := citeLowGo 0 s10
  let s12 := refGo "fig:".data 0 s11
  let s13 := refGo "eq:".data 0 s12
  let s14 := monoGo 0 s13
  let s15 := tqGo false 0 s14
  let s16 := italGo false 0 s15
  let s17 := emphGo '*' "\\textbf\x7b".data 0 s16
  let s18 := emphGo '=' "\\hl\x7b".data 0 s17
  s18

theorem format_line_eval (s0 : List Char) : format_line s0 = format_lineF s0 := by
  have h : ∀ t : List Char, joinFixF (t.length + 1) t = joinFix t :=
    fun t => joinFixF_eq _ _ (by omega)
  simp only [format_line, format_lineF, h]

/-! ## Scan-loop invariants -/

/-- Every successful scan step lands within one past the end of input. -/
theorem scanStep_le (tl : List (List Char)) (figp : List Char) (i : Nat)
    (h : i < tl.length) {b : Option Block} {t : Bool} {i' : Nat}
    (hs : scanStep tl figp i = .ok (b, t, i')) : i' ≤ tl.length + 1 := by
  have g1 : i + 1 ≤ tl.length := h
  unfold scanStep at hs
  simp only at hs
  split at hs
  · exact (by cases hs; omega)
  · split at hs
    · cases hs; omega
    · split at hs
      · rename_i hd heq
        cases hs
        have := find_next_index_le tl (fun l => (detect_header l (some hd.1)).isSome) (i + 1)
        omega
      · split at hs
        · cases hs
          have := find_next_index_le tl is_equation_dollars (i + 1)
          omega
        · split at hs
          · split at hs
            · split at hs
              · cases hs
                have := find_next_index_le tl is_equation_dollars (i + 2)
                omega
              · cases hs
            · cases hs
          · split at hs
            · cases hs
              have := find_next_index_le tl (fun l => !is_list_item l) (i + 1)
              omega
            · split at hs
              · cases hs
                have := find_next_index_le tl (fun l => !is_quote l) (i + 1)
                omega
              · split at hs
                · split at hs
                  · split at hs
                    · cases hs; rename_i hlt _ _; omega
                    · cases hs
                  · cases hs
                · split at hs
                  · cases hs; omega
                  · cases hs
                    have := find_next_index_le tl is_end_paragraph (i + 1)
                    omega

/-- `tile start ivs stop`: the intervals `ivs` are consecutive, each
nonempty, starting at `start` and ending at `stop` — i.e. they partition
`[start, stop)` in order with no gap and no overlap. -/
def tile (start : Nat) : List (Nat × Nat) → Nat → Prop
  | [], stop => start = stop
  | p :: rest, stop => p.1 = start ∧ start < p.2 ∧ tile p.2 rest stop

theorem tile_start_le : ∀ (ivs : List (Nat × Nat)) (s e : Nat), tile s ivs e →
    ∀ q ∈ ivs, s ≤ q.1 := by
  intro ivs
  induction ivs with
  | nil => intro s e _ q hq; simp at hq
  | cons a rest ih =>
    intro s e ht q hq
    obtain ⟨h1, h2, h3⟩ := ht
    rcases List.mem_cons.1 hq with rfl | hq2
    · omega
    · have := ih a.2 e h3 q hq2
      omega

theorem tile_cover : ∀ (ivs : List (Nat × Nat)) (start stop : Nat), tile start ivs stop →
    ∀ n, start ≤ n → n < stop → ∃! p : Nat × Nat, p ∈ ivs ∧ p.1 ≤ n ∧ n < p.2 := by
  intro ivs
  induction ivs with
  | nil =>
    intro start stop ht n h1 h2
    simp only [tile] at ht
    omega
  | cons a rest ih =>
    intro start stop ht n h1 h2
    obtain ⟨ha, hab, htile⟩ := ht
    by_cases hn : n < a.2
    · refine ⟨a, ⟨by simp, by omega, hn⟩, ?_⟩
      rintro q ⟨hq, hq1, hq2⟩
      rcases List.mem_cons.1 hq with rfl | hq3
      · rfl
      · have := tile_start_le rest a.2 stop htile q hq3
        omega
    · obtain ⟨p, ⟨hp, hp1, hp2⟩, huniq⟩ := ih a.2 stop htile n (by omega) h2
      refine ⟨p, ⟨by simp [hp], hp1, hp2⟩, ?_⟩
      rintro q ⟨hq, hq1, hq2⟩
      rcases List.mem_cons.1 hq with rfl | hq3
      · omega
      · exact huniq q ⟨hq3, hq1, hq2⟩

/-- The interval list returned by (the fuel twin of) the scan loop tiles
`[i, fin)` for some `fin ≥ len`: consumed ranges are consecutive,
nonempty, gap-free and overlap-free, and they cover the whole input. -/
theorem to_blocks_fuel_tile (tl : List (List Char)) (figp : List Char) :
    ∀ (fuel : Nat) (ign : Bool) (i : Nat) blks w ivs, tl.length ≤ i + fuel →
      to_blocks_fuel tl figp fuel ign i = .ok (blks, w, ivs) →
      ∃ fin, tile i ivs fin ∧ tl.length ≤ fin ∧ i ≤ fin := by
  intro fuel
  induction fuel with
  | zero =>
    intro ign i blks w ivs hf h
    rw [to_blocks_fuel] at h
    cases h
    exact ⟨i, rfl, by omega, le_refl i⟩
  | succ fuel ih =>
    intro ign i blks w ivs hf h
    rw [to_blocks_fuel] at h
    by_cases hlt : i < tl.length
    · simp only [hlt, if_pos] at h
      cases hs : scanStep tl figp i with
      | error e => rw [hs] at h; cases h
      | ok v =>
        obtain ⟨blk?, toggled, i'⟩ := v
        rw [hs] at h
        simp only at h
        have histep : i < i' := scanStep_lt tl figp i hlt hs
        cases hrec : to_blocks_fuel tl figp fuel (if toggled then !ign else ign) (max i' (i + 1)) with
        | error e => rw [hrec] at h; cases h
        | ok v2 =>
          obtain ⟨blks2, w2, ivs2⟩ := v2
          rw [hrec] at h
          simp only at h
          obtain ⟨fin, htile, hfin, hle⟩ :=
            ih (if toggled then !ign else ign) (max i' (i + 1)) blks2 w2 ivs2 (by omega) hrec
          cases h
          exact ⟨fin, ⟨rfl, by omega, htile⟩, hfin, by omega⟩
    · simp only [hlt, if_neg, if_false] at h
      cases h
      exact ⟨i, rfl, by omega, le_refl i⟩

/-- C1: for every input line sequence, a successful scan consumes the
lines as a partition — the recorded per-iteration ranges `(i, i')` are
consecutive and nonempty (so the scan pointer is strictly, in particular
monotonically non-decreasingly, advancing), their union covers the full
input range `[0, len)` with no gap, and every input line lies in exactly
one consumed range (no overlap).  Ranges of emitted and of ignored blocks
and the single-line ignore/separator skips all appear alike in the list. -/
theorem to_blocks_partition (tl : List (List Char)) (figp : List Char)
    (blks : List Block) (w : Bool) (ivs : List (Nat × Nat))
    (h : to_blocks_loop tl figp false 0 = .ok (blks, w, ivs)) :
    ∃ fin, tile 0 ivs fin ∧ tl.length ≤ fin ∧
      ∀ n, n < tl.length → ∃! p : Nat × Nat, p ∈ ivs ∧ p.1 ≤ n ∧ n < p.2 := by
  rw [← to_blocks_fuel_eq tl figp tl.length false 0 (by omega)] at h
  obtain ⟨fin, htile, hfin, _⟩ :=
    to_blocks_fuel_tile tl figp tl.length false 0 blks w ivs (by omega) h
  exact ⟨fin, htile, hfin, fun n hn => tile_cover ivs 0 fin htile n (by omega) (by omega)⟩

theorem to_blocks_partition_witness :
    ∃ fin, tile 0 [(0, 2)] fin ∧ (["# T".data, "b".data] : List (List Char)).length ≤ fin ∧
      ∀ n, n < (["# T".data, "b".data] : List (List Char)).length →
        ∃! p : Nat × Nat, p ∈ [(0, 2)] ∧ p.1 ≤ n ∧ n < p.2 :=
  to_blocks_partition ["# T".data, "b".data] []
    [.Section 1 ['T'] [['b']] []] false [(0, 2)]
    (by rw [← to_blocks_fuel_eq _ _ (["# T".data, "b".data] : List (List Char)).length _ _ (by decide)]
        decide)

/-- C9: both components terminate on every input — the scan loop because
each successful `scanStep` strictly increases the pointer while keeping it
bounded by the input length (plus the one-past-the-closing-dollar step),
and the fixed-point citation-merge loop because an iteration that changes
the line strictly shortens it, so the length test reaches no-change. -/
theorem scan_and_join_terminate :
    (∀ (tl : List (List Char)) (figp : List Char) (i : Nat) (b : Option Block) (t : Bool)
      (i' : Nat), i < tl.length → scanStep tl figp i = .ok (b, t, i') →
        i < i' ∧ i' ≤ tl.length + 1) ∧
    (∀ s : List Char, (joinSubGo s).length ≤ s.length) ∧
    (∀ s : List Char, joinSubGo s ≠ s → (joinSubGo s).length < s.length) :=
  ⟨fun tl figp i b t i' h hs => ⟨scanStep_lt tl figp i h hs, scanStep_le tl figp i h hs⟩,
   joinSubGo_len_le, joinSubGo_lt_of_ne⟩

theorem scan_and_join_terminate_witness :
    ((0 : Nat) < 1 ∧ 1 ≤ (["- a".data] : List (List Char)).length + 1) ∧
    ((joinSubGo "a2020]][[b2020".data).length ≤ ("a2020]][[b2020".data).length ∧
     (joinSubGo "a2020]][[b2020".data).length < ("a2020]][[b2020".data).length) :=
  ⟨scan_and_join_terminate.1 ["- a".data] [] 0 (some (.List ["- a".data])) false 1
     (by decide) (by decide),
   scan_and_join_terminate.2.1 "a2020]][[b2020".data,
   scan_and_join_terminate.2.2 "a2020]][[b2020".data (by decide)⟩

/-! ## Detector priority (C2) -/

/-- The block kinds a scan position can resolve to. -/
inductive BKind where
  | ignore | separator | sec | eqn | leqn | lst | qt | fig | fnote | par
deriving DecidableEq, Repr

/-- The detector chain of `to_blocks` as an explicit ordered list of
(predicate, kind) pairs, in source order. -/
def detectors : List ((List Char → Bool) × BKind) :=
  [(is_ignore_line, .ignore),
   (is_separator_line, .separator),
   (fun l => (detect_header l).isSome, .sec),
   (is_equation_dollars, .eqn),
   (fun l => (detect_labeled_equation l).isSome, .leqn),
   (is_list_item, .lst),
   (is_quote, .qt),
   (fun l => (detect_figure l).isSome, .fig),
   (fun l => (detect_footnote l).isSome, .fnote)]

/-- The kind of the earliest matching detector (default: paragraph). -/
def firstKind (l : List Char) : BKind :=
  ((detectors.find? (fun p => p.1 l)).map Prod.snd).getD .par

/-- What the scan step must produce for a line of each kind: the skip or
the block constructor of that kind (for the two checked kinds, possibly
their malformed-block assert or the end-of-input index error). -/
def stepMatchesKind (tl : List (List Char)) (figp : List Char) (i : Nat) : BKind → Prop
  | .ignore => scanStep tl figp i = .ok (none, false, i + 1)
  | .separator => scanStep tl figp i = .ok (none, true, i + 1)
  | .sec => ∃ lv t c j, scanStep tl figp i = .ok (some (.Section lv t c figp), false, j)
  | .eqn => ∃ c j, scanStep tl figp i = .ok (some (.Equation c none), false, j)
  | .leqn => (∃ c lab j, scanStep tl figp i = .ok (some (.Equation c (some lab)), false, j)) ∨
      scanStep tl figp i = .error (.assertionError eqAssertMsg) ∨
      scanStep tl figp i = .error .indexError
  | .lst => ∃ c j, scanStep tl figp i = .ok (some (.List c), false, j)
  | .qt => ∃ c j, scanStep tl figp i = .ok (some (.Quote c), false, j)
  | .fig => (∃ st lab cap j, scanStep tl figp i = .ok (some (.Figure st lab cap figp), false, j)) ∨
      (∃ msg, scanStep tl figp i = .error (.assertionError msg)) ∨
      scanStep tl figp i = .error .indexError
  | .fnote => ∃ mk c j, scanStep tl figp i = .ok (some (.Footnote mk c), false, j)
  | .par => ∃ c j, scanStep tl figp i = .ok (some (.Paragraph c), false, j)

/-- C2: at every scan position the detectors are tried in the fixed
priority order ignore → separator → header → unlabeled equation → labeled
equation → list → quote → figure → footnote → paragraph, and the earliest
matching detector decides the block type of the step's outcome. -/
theorem to_blocks_priority (tl : List (List Char)) (figp : List Char) (i : Nat)
    (h : i < tl.length) : stepMatchesKind tl figp i (firstKind (tl.getD i [])) := by
  by_cases h1 : is_ignore_line (tl.getD i [])
  · have hk : firstKind (tl.getD i []) = .ignore := by
      simp [-List.getD_eq_getElem?_getD, firstKind, detectors, List.find?, h1]
    rw [hk]
    show scanStep tl figp i = .ok (none, false, i + 1)
    unfold scanStep
    simp [-List.getD_eq_getElem?_getD, h1]
  by_cases h2 : is_separator_line (tl.getD i [])
  · have hk : firstKind (tl.getD i []) = .separator := by
      simp [-List.getD_eq_getElem?_getD, firstKind, detectors, List.find?, h1, h2]
    rw [hk]
    show scanStep tl figp i = .ok (none, true, i + 1)
    unfold scanStep
    simp [-List.getD_eq_getElem?_getD, h1, h2]
  by_cases h3 : (detect_header (tl.getD i [])).isSome
  · have hk : firstKind (tl.getD i []) = .sec := by
      simp [-List.getD_eq_getElem?_getD, firstKind, detectors, List.find?, h1, h2, h3]
    rw [hk]
    obtain ⟨hd, hhd⟩ := Option.isSome_iff_exists.1 h3
    refine ⟨hd.1, hd.2,
      (tl.drop (i + 1)).take
        (find_next_index tl (fun l => (detect_header l (some hd.1)).isSome) (i + 1) - (i + 1)),
      find_next_index tl (fun l => (detect_header l (some hd.1)).isSome) (i + 1), ?_⟩
    unfold scanStep
    simp [-List.getD_eq_getElem?_getD, h1, h2, hhd]
  have h3' : detect_header (tl.getD i []) = none := Option.not_isSome_iff_eq_none.1 h3
  by_cases h4 : is_equation_dollars (tl.getD i [])
  · have hk : firstKind (tl.getD i []) = .eqn := by
      simp [-List.getD_eq_getElem?_getD, firstKind, detectors, List.find?, h1, h2, h3, h4]
    rw [hk]
    refine ⟨(tl.drop (i + 1)).take (find_next_index tl is_equation_dollars (i + 1) - (i + 1)),
      find_next_index tl is_equation_dollars (i + 1) + 1, ?_⟩
    unfold scanStep
    simp [-List.getD_eq_getElem?_getD, h1, h2, h3', h4]
  by_cases h5 : (detect_labeled_equation (tl.getD i [])).isSome
  · have hk : firstKind (tl.getD i []) = .leqn := by
      simp [-List.getD_eq_getElem?_getD, firstKind, detectors, List.find?, h1, h2, h3, h4, h5]
    rw [hk]
    obtain ⟨lab, hlab⟩ := Option.isSome_iff_exists.1 h5
    show (∃ c lab j, scanStep tl figp i = .ok (some (.Equation c (some lab)), false, j)) ∨ _ ∨ _
    by_cases h5a : i + 1 < tl.length
    · by_cases h5b : is_equation_dollars (tl.getD (i + 1) [])
      · refine .inl ⟨(tl.drop (i + 2)).take (find_next_index tl is_equation_dollars (i + 2) - (i + 2)),
          lab, find_next_index tl is_equation_dollars (i + 2) + 1, ?_⟩
        unfold scanStep
        simp [-List.getD_eq_getElem?_getD, h1, h2, h3', h4, hlab, h5a, h5b]
      · refine .inr (.inl ?_)
        unfold scanStep
        simp [-List.getD_eq_getElem?_getD, h1, h2, h3', h4, hlab, h5a, h5b]
    · refine .inr (.inr ?_)
      unfold scanStep
      simp [-List.getD_eq_getElem?_getD, h1, h2, h3', h4, hlab, h5a]
  have h5' : detect_labeled_equation (tl.getD i []) = none := Option.not_isSome_iff_eq_none.1 h5
  by_cases h6 : is_list_item (tl.getD i [])
  · have hk : firstKind (tl.getD i []) = .lst := by
      simp [-List.getD_eq_getElem?_getD, firstKind, detectors, List.find?, h1, h2, h3, h4, h5, h6]
    rw [hk]
    refine ⟨(tl.drop i).take (find_next_index tl (fun l => !is_list_item l) (i + 1) - i),
      find_next_index tl (fun l => !is_list_item l) (i + 1), ?_⟩
    unfold scanStep
    simp [-List.getD_eq_getElem?_getD, h1, h2, h3', h4, h5', h6]
  by_cases h7 : is_quote (tl.getD i [])
  · have hk : firstKind (tl.getD i []) = .qt := by
      simp [-List.getD_eq_getElem?_getD, firstKind, detectors, List.find?, h1, h2, h3, h4, h5, h6, h7]
    rw [hk]
    refine ⟨((tl.drop i).take (find_next_index tl (fun l => !is_quote l) (i + 1) - i)).map quoteStrip,
      find_next_index tl (fun l => !is_quote l) (i + 1), ?_⟩
    unfold scanStep
    simp [-List.getD_eq_getElem?_getD, h1, h2, h3', h4, h5', h6, h7]
  by_cases h8 : (detect_figure (tl.getD i [])).isSome
  · have hk : firstKind (tl.getD i []) = .fig := by
      simp [-List.getD_eq_getElem?_getD, firstKind, detectors, List.find?, h1, h2, h3, h4, h5, h6, h7, h8]
    rw [hk]
    obtain ⟨st, hst⟩ := Option.isSome_iff_exists.1 h8
    show (∃ st lab cap j, scanStep tl figp i = .ok (some (.Figure st lab cap figp), false, j)) ∨ _ ∨ _
    by_cases h8a : i + 1 < tl.length
    · cases h8b : captionMatch (tl.getD (i + 1) []) with
      | some lc =>
        refine .inl ⟨st, lc.1, lc.2, i + 2, ?_⟩
        unfold scanStep
        simp [-List.getD_eq_getElem?_getD, h1, h2, h3', h4, h5', h6, h7, hst, h8a, h8b]
      | none =>
        refine .inr (.inl ⟨figAssertMsg (st.headD []), ?_⟩)
        unfold scanStep
        simp [-List.getD_eq_getElem?_getD, h1, h2, h3', h4, h5', h6, h7, hst, h8a, h8b]
    · refine .inr (.inr ?_)
      unfold scanStep
      simp [-List.getD_eq_getElem?_getD, h1, h2, h3', h4, h5', h6, h7, hst, h8a]
  have h8' : detect_figure (tl.getD i []) = none := Option.not_isSome_iff_eq_none.1 h8
  by_cases h9 : (detect_footnote (tl.getD i [])).isSome
  · have hk : firstKind (tl.getD i []) = .fnote := by
      simp [-List.getD_eq_getElem?_getD, firstKind, detectors, List.find?, h1, h2, h3, h4, h5, h6, h7, h8, h9]
    rw [hk]
    obtain ⟨fm, hfm⟩ := Option.isSome_iff_exists.1 h9
    refine ⟨fm.1, [fm.2], i + 1, ?_⟩
    unfold scanStep
    simp [-List.getD_eq_getElem?_getD, h1, h2, h3', h4, h5', h6, h7, h8', hfm]
  have h9' : detect_footnote (tl.getD i []) = none := Option.not_isSome_iff_eq_none.1 h9
  have hk : firstKind (tl.getD i []) = .par := by
    simp [-List.getD_eq_getElem?_getD, firstKind, detectors, List.find?, h1, h2, h3, h4, h5, h6, h7, h8, h9]
  rw [hk]
  refine ⟨(tl.drop i).take (find_next_index tl is_end_paragraph (i + 1) - i),
    find_next_index tl is_end_paragraph (i + 1), ?_⟩
  unfold scanStep
  simp [-List.getD_eq_getElem?_getD, h1, h2, h3', h4, h5', h6, h7, h8', h9']

theorem to_blocks_priority_witness :
    stepMatchesKind ["- item".data] [] 0 (firstKind ((["- item".data] : List (List Char)).getD 0 [])) :=
  to_blocks_priority ["- item".data] [] 0 (by decide)

/-! ## The malformed-block conditions (C3, C10) -/

/-- C3 (evidence): the two malformed-block asserts fire with fixed
messages that carry no line index (the figure one carries the file name),
and a labeled-equation marker on the final input line raises the
out-of-range index error — a third fatal outcome besides the two asserts. -/
theorem malformed_block_failures :
    to_blocks ["`eq_label:foo`".data, "not-dollars".data] [] =
      .error (.assertionError eqAssertMsg) ∧
    to_blocks ["![[a.png]]".data, "bad".data] [] =
      .error (.assertionError (figAssertMsg "a.png".data)) ∧
    to_blocks ["`eq_label:foo`".data] [] = .error .indexError ∧
    eqAssertMsg = "Equation dollars must be alone in a line".data :=
  ⟨by rw [to_blocks_eval]; decide, by rw [to_blocks_eval]; decide,
   by rw [to_blocks_eval]; decide, by decide⟩

/-- C10: an input whose final line is a labeled-equation marker, and one
whose final line is a figure embed, both make the scan's unguarded
lookahead `text_lines[i + 1]` raise the out-of-range index error instead
of the documented malformed-block error. -/
theorem final_line_lookahead_index_error :
    to_blocks ["`eq_label:bar`".data] [] = .error .indexError ∧
    to_blocks ["![[b.jpg]]".data] [] = .error .indexError :=
  ⟨by rw [to_blocks_eval]; decide, by rw [to_blocks_eval]; decide⟩

/-! ## Header capture (C4) -/

theorem rstripWS_cons (c : Char) (t : List Char) (hc : isWS c = false) :
    rstripWS (c :: t) = c :: rstripWS t := by
  unfold rstripWS
  rw [List.reverse_cons, List.dropWhile_append]
  by_cases he : (t.reverse.dropWhile isWS).isEmpty
  · rw [List.isEmpty_iff] at he
    simp [he, List.dropWhile_cons, hc]
  · simp only [he, if_neg, Bool.not_eq_true, if_false]
    simp

theorem strip_cons (c : Char) (t : List Char) (hc : isWS c = false) :
    strip (c :: t) = c :: rstripWS t := by
  unfold strip lstripWS
  rw [List.dropWhile_cons]
  simp only [hc, if_neg, Bool.false_eq_true, if_false]
  exact rstripWS_cons c t hc

/-- A header line starts with `#`. -/
theorem detect_header_head {line : List Char} {lv : Nat} {title : List Char}
    (h : detect_header line = some (lv, title)) : ∃ t, line = '#' :: t := by
  unfold detect_header detect_header_range at h
  simp only at h
  split at h
  · rename_i hn
    cases hline : line with
    | nil =>
      rw [hline] at hn
      simp at hn
    | cons a t =>
      by_cases ha : a = '#'
      · exact ⟨t, by rw [ha]⟩
      · rw [hline] at hn
        rw [List.takeWhile_cons] at hn
        simp [ha] at hn
  · cases h

/-- A header line is not an ignore line and not a separator line. -/
theorem detect_header_not_ignore_sep {line : List Char} {lv : Nat} {title : List Char}
    (h : detect_header line = some (lv, title)) :
    is_ignore_line line = false ∧ is_separator_line line = false := by
  obtain ⟨t, rfl⟩ := detect_header_head h
  have hs := strip_cons '#' t (by decide)
  constructor
  · unfold is_ignore_line
    rw [hs]
    simp only [List.isEmpty_cons, Bool.false_or]
    unfold is_comment commandTruthy
    cases hdc : detect_command ('#' :: t) with
    | none => rfl
    | some r =>
      exfalso
      unfold detect_command at hdc
      split at hdc
      · rename_i c rest heq
        split at hdc
        · cases hdc
        · split at hdc
          · rename_i hch hws
            cases List.cons.inj heq with
            | intro h1 h2 =>
              subst h2
              rw [show ('#' :: '#' :: '#' :: c :: rest : List Char) =
                  ('#' :: '#' :: '#' :: c :: rest) from rfl] at h
              unfold detect_header detect_header_range at h
              simp only at h
              rw [List.takeWhile_cons, List.takeWhile_cons, List.takeWhile_cons,
                List.takeWhile_cons] at h
              simp [hch] at h
          · cases hdc
      · cases hdc
  · unfold is_separator_line
    rw [hs]
    simp

/-- C4: on a header line, the scan step emits a Section block whose
`childLines` are exactly the lines strictly between the header and the
next same-level header (or end of input): below the boundary no line is a
same-level header, at the boundary (if inside the input) the line is one,
and the pointer jumps to the boundary (`≤ len`, not past it).  In
particular `"# Title" / "Body line"` yields one Section block of level 1,
title `Title`, childLines `["Body line"]`. -/
theorem header_section_capture (tl : List (List Char)) (figp : List Char) (i : Nat)
    (lv : Nat) (title : List Char) (h : i < tl.length)
    (hh : detect_header (tl.getD i []) = some (lv, title)) :
    scanStep tl figp i = .ok (some (.Section lv title
        ((tl.drop (i + 1)).take
          (find_next_index tl (fun l => (detect_header l (some lv)).isSome) (i + 1) - (i + 1)))
        figp), false,
      find_next_index tl (fun l => (detect_header l (some lv)).isSome) (i + 1)) ∧
    (∀ j, i + 1 ≤ j →
      j < find_next_index tl (fun l => (detect_header l (some lv)).isSome) (i + 1) →
      (detect_header (tl.getD j []) (some lv)).isSome = false) ∧
    (find_next_index tl (fun l => (detect_header l (some lv)).isSome) (i + 1) < tl.length →
      (detect_header
        (tl.getD (find_next_index tl (fun l => (detect_header l (some lv)).isSome) (i + 1)) [])
        (some lv)).isSome = true) ∧
    find_next_index tl (fun l => (detect_header l (some lv)).isSome) (i + 1) ≤ tl.length ∧
    to_blocks ["# Title".data, "Body line".data] [] =
      .ok ⟨[.Section 1 "Title".data ["Body line".data] []], false⟩ := by
  obtain ⟨hig, hsep⟩ := detect_header_not_ignore_sep hh
  refine ⟨?_, ?_, ?_, ?_, ?_⟩
  · unfold scanStep
    simp [-List.getD_eq_getElem?_getD, hig, hsep, hh]
  · exact fun j h1 h2 => find_next_index_not tl _ (i + 1) j h1 h2
  · exact fun hlt => find_next_index_hit tl _ (i + 1) hlt
  · exact find_next_index_le tl _ (i + 1)
  · rw [to_blocks_eval]; decide

theorem header_section_capture_witness :
    (scanStep ["## A".data, "x".data, "## B".data] [] 0 = .ok (some (.Section 2 ['A']
        (((["## A".data, "x".data, "## B".data] : List (List Char)).drop 1).take
          (find_next_index ["## A".data, "x".data, "## B".data]
            (fun l => (detect_header l (some 2)).isSome) 1 - 1)) []), false,
      find_next_index ["## A".data, "x".data, "## B".data]
        (fun l => (detect_header l (some 2)).isSome) 1)) ∧
    (∀ j, 1 ≤ j →
      j < find_next_index ["## A".data, "x".data, "## B".data]
        (fun l => (detect_header l (some 2)).isSome) 1 →
      (detect_header ((["## A".data, "x".data, "## B".data] : List (List Char)).getD j [])
        (some 2)).isSome = false) ∧
    (find_next_index ["## A".data, "x".data, "## B".data]
        (fun l => (detect_header l (some 2)).isSome) 1 <
        (["## A".data, "x".data, "## B".data] : List (List Char)).length →
      (detect_header ((["## A".data, "x".data, "## B".data] : List (List Char)).getD
        (find_next_index ["## A".data, "x".data, "## B".data]
          (fun l => (detect_header l (some 2)).isSome) 1) []) (some 2)).isSome = true) ∧
    find_next_index ["## A".data, "x".data, "## B".data]
      (fun l => (detect_header l (some 2)).isSome) 1 ≤
      (["## A".data, "x".data, "## B".data] : List (List Char)).length ∧
    to_blocks ["# Title".data, "Body line".data] [] =
      .ok ⟨[.Section 1 "Title".data ["Body line".data] []], false⟩ :=
  header_section_capture ["## A".data, "x".data, "## B".data] [] 0 2 ['A']
    (by decide) (by decide)

/-! ## Ignore regions (C5) -/

theorem to_blocks_loop_filter_aux (tl : List (List Char)) (figp : List Char) :
    ∀ (n i : Nat) (ign : Bool), tl.length ≤ i + n →
      to_blocks_loop tl figp ign i =
        (scanAll tl figp ign i).map
          (fun r => ((r.1.filter (fun p => !p.2)).map Prod.fst, r.2)) := by
  intro n
  induction n with
  | zero =>
    intro i ign hf
    rw [to_blocks_loop, scanAll]
    have : ¬ i < tl.length := by omega
    simp [this, Except.map]
  | succ n ih =>
    intro i ign hf
    rw [to_blocks_loop, scanAll]
    by_cases h : i < tl.length
    · simp only [h, if_pos]
      cases hs : scanStep tl figp i with
      | error e => simp [Except.map]
      | ok v =>
        obtain ⟨blk?, toggled, i'⟩ := v
        have hlt : i < i' := scanStep_lt tl figp i h hs
        simp only [ih (max i' (i + 1)) (if toggled then !ign else ign) (by omega)]
        cases hsa : scanAll tl figp (if toggled then !ign else ign) (max i' (i + 1)) with
        | error e => simp [Except.map]
        | ok r =>
          obtain ⟨tb, w, ivs⟩ := r
          simp only [Except.map]
          cases blk? with
          | none => rfl
          | some b =>
            cases ign <;> simp
    · simp [h, Except.map]

theorem scanAll_negate_aux (tl : List (List Char)) (figp : List Char) :
    ∀ (n i : Nat) (ign : Bool), tl.length ≤ i + n →
      scanAll tl figp (!ign) i =
        (scanAll tl figp ign i).map
          (fun r => (r.1.map (fun p => (p.1, !p.2)), !r.2.1, r.2.2)) := by
  intro n
  induction n with
  | zero =>
    intro i ign hf
    rw [scanAll, scanAll]
    have : ¬ i < tl.length := by omega
    simp [this, Except.map]
  | succ n ih =>
    intro i ign hf
    rw [scanAll, scanAll]
    by_cases h : i < tl.length
    · simp only [h, if_pos]
      cases hs : scanStep tl figp i with
      | error e => simp [Except.map]
      | ok v =>
        obtain ⟨blk?, toggled, i'⟩ := v
        have hlt : i < i' := scanStep_lt tl figp i h hs
        have hx : (if toggled then !(!ign) else !ign) = !(if toggled then !ign else ign) := by
          cases toggled <;> simp
        simp only [hx, ih (max i' (i + 1)) (if toggled then !ign else ign) (by omega)]
        cases hsa : scanAll tl figp (if toggled then !ign else ign) (max i' (i + 1)) with
        | error e => simp [Except.map]
        | ok r =>
          obtain ⟨tb, w, ivs⟩ := r
          simp only [Except.map]
          cases blk? with
          | none => rfl
          | some b => simp
    · simp [h, Except.map]

/-- C5: a separator line toggles the ignore flag (the loop applies the
step's toggle signal); while the flag is set, detection and pointer
advancement run exactly as if it were clear — the instrumented scan with
the opposite starting flag produces the same consumed ranges and the same
produced blocks (only their emission flags negated, the final flag
negated) — and a produced block is appended to the output exactly when
the flag at its production time is false.  Content between a pair of
separators is thus parsed and skipped but never surfaced (first example),
and a scan ending with the flag still set only reports the warning flag
while returning all emitted blocks unchanged (second example). -/
theorem ignore_region_semantics :
    (∀ (tl : List (List Char)) (figp : List Char) (ign : Bool) (i : Nat),
      to_blocks_loop tl figp ign i =
        (scanAll tl figp ign i).map
          (fun r => ((r.1.filter (fun p => !p.2)).map Prod.fst, r.2))) ∧
    (∀ (tl : List (List Char)) (figp : List Char) (ign : Bool) (i : Nat),
      scanAll tl figp (!ign) i =
        (scanAll tl figp ign i).map
          (fun r => (r.1.map (fun p => (p.1, !p.2)), !r.2.1, r.2.2))) ∧
    to_blocks ["---".data, "secret".data, "---".data, "visible".data] [] =
      .ok ⟨[.Paragraph ["visible".data]], false⟩ ∧
    to_blocks ["before".data, "---".data, "x".data] [] =
      .ok ⟨[.Paragraph ["before".data]], true⟩ :=
  ⟨fun tl figp ign i => to_blocks_loop_filter_aux tl figp tl.length i ign (by omega),
   fun tl figp ign i => scanAll_negate_aux tl figp tl.length i ign (by omega),
   by rw [to_blocks_eval]; decide,
   by rw [to_blocks_eval]; decide⟩

/-! ## Emphasis priority (C8) -/

/-- C8: emphasis lowering applies quoted-italic, then plain italic (whose
lookarounds keep it from matching inside a `**` bold span), then bold,
then highlight — so `**bold** and *italic*` lowers both without
cross-matching, and `*"quoted"*` lowers to the quoted form, not italic. -/
theorem emphasis_priority :
    format_text ["**bold** and *italic*".data] =
      ["\\textbf\x7bbold\x7d and \\textit\x7bitalic\x7d".data] ∧
    format_text ["*\"quoted\"*".data] = ["\\textquote\x7bquoted\x7d".data] :=
  ⟨by simp only [format_text, List.map]; rw [format_line_eval]; decide,
   by simp only [format_text, List.map]; rw [format_line_eval]; decide⟩

/-! ## Citation normalization (C7) -/

theorem findIdxOf_not (c : Char) : ∀ s : List Char, c ∉ s → findIdxOf c s = none := by
  intro s
  induction s with
  | nil => intro _; rfl
  | cons a rest ih =>
    intro h
    simp only [List.mem_cons, not_or] at h
    have ha : a ≠ c := fun hc => h.1 hc.symm
    simp [findIdxOf, ha, ih h.2]

theorem findIdxOf_append (c : Char) : ∀ (x y : List Char), c ∉ x →
    findIdxOf c (x ++ c :: y) = some x.length := by
  intro x y
  induction x with
  | nil => simp [findIdxOf]
  | cons a x' ih =>
    intro h
    simp only [List.mem_cons, not_or] at h
    have ha : a ≠ c := fun hc => h.1 hc.symm
    simp [findIdxOf, ha, ih h.2]

theorem citeNormGo_skip : ∀ (s : List Char) (k : Nat), citeNormGo (k + 1) s = citeNormGo 0 (s.drop (k + 1)) := by
  intro s
  induction s with
  | nil => intro k; simp [citeNormGo]
  | cons a rest ih =>
    intro k
    show citeNormGo (k + 1) (a :: rest) = citeNormGo 0 (rest.drop k)
    cases k with
    | zero => rfl
    | succ k => exact ih k

theorem citeNormGo_copy : ∀ (x : List Char), (∀ c ∈ x, c ≠ '`') → ∀ y,
    citeNormGo 0 (x ++ y) = x ++ citeNormGo 0 y := by
  intro x
  induction x with
  | nil => intro _ y; simp
  | cons a x' ih =>
    intro h y
    have ha : a ≠ '`' := h a (by simp)
    have h' : ∀ c ∈ x', c ≠ '`' := fun c hc => h c (by simp [hc])
    rw [List.cons_append]
    rw [citeNormGo]
    simp only [ha, if_neg, if_false]
    rw [ih h' y]
    rfl

theorem citeNormGo_id (s : List Char) (h : ∀ c ∈ s, c ≠ '`') : citeNormGo 0 s = s := by
  have hthis := citeNormGo_copy s h []
  simp only [List.append_nil, show citeNormGo 0 ([] : List Char) = [] from rfl] at hthis
  exact hthis

/-- Behaviour of citation normalization on one well-delimited backtick
span: the span is rewritten iff its text matches the key shape. -/
theorem citeNorm_span (mid post : List Char) (hm : ∀ c ∈ mid, c ≠ '`')
    (hp : ∀ c ∈ post, c ≠ '`') :
    citeNormalize ('`' :: (mid ++ '`' :: post)) =
      if matchesCiteKey mid then '[' :: '[' :: mid ++ ']' :: ']' :: citeNormalize post
      else '`' :: mid ++ '`' :: citeNormalize post := by
  unfold citeNormalize
  rw [citeNormGo]
  have hfind : findIdxOf '`' (mid ++ '`' :: post) = some mid.length :=
    findIdxOf_append '`' mid post (fun hc => (hm '`' hc) rfl)
  simp only [if_pos rfl, hfind]
  have htake : (mid ++ '`' :: post).take mid.length = mid := by
    rw [List.take_append_of_le_length (le_refl mid.length), List.take_length]
  rw [htake]
  by_cases hmk : matchesCiteKey mid
  · simp only [hmk, if_pos, if_true]
    rw [citeNormGo_skip]
    have hdrop : (mid ++ '`' :: post).drop (mid.length + 1) = post := by
      rw [show (mid ++ '`' :: post) = (mid ++ ['`']) ++ post by simp,
        show mid.length + 1 = (mid ++ ['`']).length by simp]
      exact List.drop_left (mid ++ ['`']) post
    rw [hdrop]
  · simp only [hmk, if_neg, if_false, Bool.false_eq_true]
    rw [citeNormGo_copy mid hm ('`' :: post)]
    rw [citeNormGo]
    have hfind2 : findIdxOf '`' post = none :=
      findIdxOf_not '`' post (fun hc => (hp '`' hc) rfl)
    simp [hfind2]

/-- Modelled from the spec's words, for comparison with the code's
`matchesCiteKey`: a word containing a 2-digit-prefixed 4-digit year
token with prefix `18`, `19` or `20`. -/
def specYearTok (t : List Char) : Bool :=
  (List.range t.length).any (fun i =>
    ((t.getD i ' ' = '1' && (t.getD (i + 1) ' ' = '8' || t.getD (i + 1) ' ' = '9')) ||
     (t.getD i ' ' = '2' && t.getD (i + 1) ' ' = '0')) &&
    (t.getD (i + 2) ' ').isDigit && (t.getD (i + 3) ' ').isDigit)

/-- C7 counterexample: the span text `abc100` contains no 18/19/20-prefixed
4-digit year token, yet `format_text` rewrites the span into a citation
command — the code's character class `[18|19|20]` accepts any of the
characters `1 8 | 9 2 0` before two digits. -/
theorem citation_year_shape_counterexample :
    specYearTok "abc100".data = false ∧
    format_text ["`abc100`".data] = ["\\cite\x7babc100\x7d".data] :=
  ⟨by decide, by simp only [format_text, List.map]; rw [format_line_eval]; decide⟩

/-- C7 (amended): exactly the backtick spans whose literal text matches
the code's author-year shape `\w+[18|19|20]\d{2}\w*` — a word containing
one character of the class `{1,8,9,2,0,|}` followed by two digits — are
rewritten into double-bracket references (single-span iff), which are then
lowered to citation commands: `doe2020abc` becomes `\cite{doe2020abc}`,
and two adjacent such spans separated by a comma-space run merge into one
citation command carrying the comma-joined key list. -/
theorem citation_normalize_shape :
    (∀ t : List Char, (∀ c ∈ t, c ≠ '`') →
      citeNormalize ('`' :: (t ++ ['`'])) =
        if matchesCiteKey t then '[' :: '[' :: t ++ [']', ']'] else '`' :: t ++ ['`']) ∧
    matchesCiteKey "doe2020abc".data = true ∧
    format_text ["`doe2020abc`".data] = ["\\cite\x7bdoe2020abc\x7d".data] ∧
    format_text ["`doe2020a`, `doe2020b`".data] = ["\\cite\x7bdoe2020a,doe2020b\x7d".data] := by
  refine ⟨?_, by decide, ?_, ?_⟩
  · intro t ht
    have := citeNorm_span t [] ht (by simp)
    rw [show (t ++ ['`'] : List Char) = t ++ '`' :: [] by simp] at *
    rw [this]
    by_cases hmk : matchesCiteKey t
    · simp [hmk, citeNormalize, citeNormGo]
    · simp [hmk, citeNormalize, citeNormGo]
  · simp only [format_text, List.map]; rw [format_line_eval]; decide
  · simp only [format_text, List.map]; rw [format_line_eval]; decide

theorem citation_normalize_shape_witness :
    citeNormalize ('`' :: ("doe2020abc".data ++ ['`'])) =
      if matchesCiteKey "doe2020abc".data then
        '[' :: '[' :: "doe2020abc".data ++ [']', ']']
      else '`' :: "doe2020abc".data ++ ['`'] :=
  citation_normalize_shape.1 "doe2020abc".data (by decide)

/-! ## Protection round-trip machinery -/

/-- Lowercase letters and underscore: the span alphabet of the protection
round-trip theorem. -/
def protChars : List Char := "abcdefghijklmnopqrstuvwxyz_".data

theorem prot_facts : ∀ c ∈ protChars, c ≠ '$' ∧ c ≠ '`' ∧ c ≠ '[' ∧ c ≠ ']' ∧
    c ≠ '*' ∧ c ≠ '=' ∧ c ≠ ':' ∧ c.isDigit = false := by decide

theorem getD_or (t : List Char) : ∀ (i : Nat) (d : Char), t.getD i d = d ∨ t.getD i d ∈ t := by
  induction t with
  | nil => intro i d; left; cases i <;> rfl
  | cons a rest ih =>
    intro i d
    cases i with
    | zero => right; rw [List.getD_cons_zero]; exact List.mem_cons_self a rest
    | succ n =>
      rw [List.getD_cons_succ]
      rcases ih n d with h | h
      · left; exact h
      · right; exact List.mem_cons_of_mem a h

theorem forall_mem_append2 {p : Char → Prop} {x y : List Char}
    (hx : ∀ c ∈ x, p c) (hy : ∀ c ∈ y, p c) : ∀ c ∈ x ++ y, p c := by
  intro c hc
  rcases List.mem_append.1 hc with h | h
  exacts [hx c h, hy c h]

theorem forall_mem_cons2 {p : Char → Prop} {a : Char} {x : List Char}
    (ha : p a) (hx : ∀ c ∈ x, p c) : ∀ c ∈ a :: x, p c := by
  intro c hc
  rcases List.mem_cons.1 hc with rfl | h
  exacts [ha, hx c h]

theorem delimGo_skip (o : Char) (os cl repl : List Char) :
    ∀ (k : Nat) (s : List Char), delimGo o os cl repl k s = delimGo o os cl repl 0 (s.drop k) := by
  intro k
  induction k with
  | zero => intro s; rw [List.drop_zero]
  | succ k ih =>
    intro s
    cases s with
    | nil => rfl
    | cons c rest =>
      show delimGo o os cl repl k rest = _
      rw [ih rest, List.drop_succ_cons]

theorem delimGo_copy (o : Char) (os cl repl : List Char) :
    ∀ (x : List Char), (∀ c ∈ x, c ≠ o) → ∀ y,
    delimGo o os cl repl 0 (x ++ y) =
      ((delimGo o os cl repl 0 y).1, x ++ (delimGo o os cl repl 0 y).2) := by
  intro x
  induction x with
  | nil => intro _ y; simp
  | cons a x' ih =>
    intro h y
    have ha : a ≠ o := h a (by simp)
    have h' : ∀ c ∈ x', c ≠ o := fun c hc => h c (by simp [hc])
    have hcond : ¬(a = o ∧ (x' ++ y).take os.length = os) := fun hand => ha hand.1
    rw [List.cons_append, delimGo, if_neg hcond, ih h' y]
    rfl

theorem delimGo_no_open (o : Char) (os cl repl : List Char) (s : List Char)
    (h : ∀ c ∈ s, c ≠ o) : delimGo o os cl repl 0 s = ([], s) := by
  have hthis := delimGo_copy o os cl repl s h []
  simpa [show delimGo o os cl repl 0 ([] : List Char) = ([], []) from rfl] using hthis

theorem findSubstrIdx_boundary (p : Char) (ps : List Char) :
    ∀ (x : List Char), (∀ c ∈ x, c ≠ p) → ∀ (y : List Char),
    y.take (p :: ps).length = p :: ps →
    findSubstrIdx (p :: ps) (x ++ y) = some x.length := by
  intro x
  induction x with
  | nil =>
    intro _ y hy
    cases y with
    | nil => simp at hy
    | cons b rest =>
      rw [List.nil_append, findSubstrIdx, if_pos hy]
      rfl
  | cons a x' ih =>
    intro h y hy
    have ha : a ≠ p := h a (by simp)
    have h' : ∀ c ∈ x', c ≠ p := fun c hc => h c (by simp [hc])
    have hcond : ¬((a :: (x' ++ y)).take (p :: ps).length = p :: ps) := by
      intro hc
      rw [List.length_cons, List.take_succ_cons] at hc
      exact ha (List.cons_eq_cons.mp hc).1
    rw [List.cons_append, findSubstrIdx, if_neg hcond, ih h' y hy]
    rfl

theorem findSubstrIdx_fit (pat : List Char) :
    ∀ (s : List Char) (q : Nat), findSubstrIdx pat s = some q → q + pat.length ≤ s.length := by
  intro s
  induction s with
  | nil =>
    intro q h
    rw [findSubstrIdx] at h
    by_cases hp : pat.isEmpty
    · rw [if_pos hp] at h
      cases h
      simp [List.isEmpty_iff.mp hp]
    · rw [if_neg hp] at h
      cases h
  | cons c rest ih =>
    intro q h
    rw [findSubstrIdx] at h
    by_cases ht : (c :: rest).take pat.length = pat
    · rw [if_pos ht] at h
      cases h
      have hlen := congrArg List.length ht
      simp only [List.length_take, List.length_cons] at hlen
      simp only [List.length_cons]
      omega
    · rw [if_neg ht] at h
      cases hfq : findSubstrIdx pat rest with
      | none => rw [hfq] at h; simp at h
      | some q' =>
        rw [hfq] at h
        simp only [Option.map] at h
        cases h
        have := ih q' hfq
        simp only [List.length_cons]
        omega

theorem findSubstrIdx_extend (pat : List Char) :
    ∀ (x : List Char) (q : Nat), findSubstrIdx pat x = some q → ∀ y,
    findSubstrIdx pat (x ++ y) = some q := by
  intro x
  induction x with
  | nil =>
    intro q h y
    rw [findSubstrIdx] at h
    by_cases hp : pat.isEmpty
    · rw [if_pos hp] at h
      cases h
      have hpe : pat = [] := List.isEmpty_iff.mp hp
      subst hpe
      cases y with
      | nil => rfl
      | cons b rest =>
        rw [List.nil_append, findSubstrIdx, if_pos (by simp)]
    · rw [if_neg hp] at h
      cases h
  | cons c rest ih =>
    intro q h y
    rw [findSubstrIdx] at h
    rw [List.cons_append, findSubstrIdx]
    by_cases ht : (c :: rest).take pat.length = pat
    · rw [if_pos ht] at h
      cases h
      have hlen := congrArg List.length ht
      simp only [List.length_take, List.length_cons] at hlen
      have hle : pat.length ≤ rest.length + 1 := by omega
      have htk : (c :: (rest ++ y)).take pat.length = pat := by
        rw [show (c :: (rest ++ y)) = (c :: rest) ++ y from rfl,
          List.take_append_of_le_length (by simpa using hle), ht]
      rw [if_pos htk]
    · rw [if_neg ht] at h
      cases hfq : findSubstrIdx pat rest with
      | none => rw [hfq] at h; simp at h
      | some q' =>
        rw [hfq] at h
        simp only [Option.map] at h
        cases h
        have hfit := findSubstrIdx_fit pat rest q' hfq
        have hle : pat.length ≤ rest.length + 1 := by omega
        have htk : ¬((c :: (rest ++ y)).take pat.length = pat) := by
          rw [show (c :: (rest ++ y)) = (c :: rest) ++ y from rfl,
            List.take_append_of_le_length (by simpa using hle)]
          exact ht
        rw [if_neg htk, ih q' hfq y]
        rfl

theorem delimGo_match (o : Char) (os : List Char) (p : Char) (ps : List Char)
    (repl mid y : List Char) (hmid : ∀ c ∈ mid, c ≠ p) :
    delimGo o os (p :: ps) repl 0 ((o :: os) ++ mid ++ (p :: ps) ++ y) =
      (((o :: os) ++ mid ++ (p :: ps)) :: (delimGo o os (p :: ps) repl 0 y).1,
        repl ++ (delimGo o os (p :: ps) repl 0 y).2) := by
  have hrest : (o :: os) ++ mid ++ (p :: ps) ++ y = o :: (os ++ (mid ++ ((p :: ps) ++ y))) := by
    simp
  rw [hrest, delimGo]
  have hcond : o = o ∧ (os ++ (mid ++ ((p :: ps) ++ y))).take os.length = os :=
    ⟨rfl, by rw [List.take_append_of_le_length (le_refl _), List.take_length]⟩
  rw [if_pos hcond]
  have hfind : findSubstrIdx (p :: ps) ((os ++ (mid ++ ((p :: ps) ++ y))).drop os.length) =
      some mid.length := by
    rw [List.drop_left os]
    exact findSubstrIdx_boundary p ps mid hmid ((p :: ps) ++ y)
      (by rw [List.take_append_of_le_length (le_refl _), List.take_length])
  simp only [hfind]
  have hmiddle : ((os ++ (mid ++ ((p :: ps) ++ y))).drop os.length).take mid.length = mid := by
    rw [List.drop_left os, List.take_append_of_le_length (le_refl _), List.take_length]
  have hskip : delimGo o os (p :: ps) repl (os.length + mid.length + (p :: ps).length)
      (os ++ (mid ++ ((p :: ps) ++ y))) = delimGo o os (p :: ps) repl 0 y := by
    have hk : os.length + mid.length + (p :: ps).length =
        (os ++ (mid ++ (p :: ps))).length := by simp; omega
    rw [delimGo_skip, hk,
      show os ++ (mid ++ ((p :: ps) ++ y)) = (os ++ (mid ++ (p :: ps))) ++ y by simp,
      List.drop_left]
  rw [hmiddle, hskip]

theorem matchesCiteKey_no_digit (t : List Char) (h : ∀ c ∈ t, c.isDigit = false) :
    matchesCiteKey t = false := by
  unfold matchesCiteKey
  rw [List.any_eq_false]
  intro k _
  have hd : (t.getD (k + 1) ' ').isDigit = false := by
    rcases getD_or t (k + 1) ' ' with he | hm
    · rw [he]; rfl
    · exact h _ hm
  intro hp
  simp only [hd, Bool.and_false, Bool.false_and] at hp
  exact Bool.noConfusion hp

theorem matchJoinAt_none (u : List Char) (h : ∀ c ∈ u, c.isDigit = false) :
    matchJoinAt u = none := by
  unfold matchJoinAt
  rw [List.findSome?_eq_none_iff]
  intro j _
  have hd : (u.getD (j + 1) ' ').isDigit = false := by
    rcases getD_or u (j + 1) ' ' with he | hm
    · rw [he]; rfl
    · exact h _ hm
  simp only [hd, Bool.and_false, Bool.false_and]
  simp

theorem matchCiteInner_none (x : List Char) (h : ∀ c ∈ x, c.isDigit = false) :
    matchCiteInner x = none := by
  unfold matchCiteInner
  rw [List.findSome?_eq_none_iff]
  intro j _
  have hd : (x.getD (j + 1) ' ').isDigit = false := by
    rcases getD_or x (j + 1) ' ' with he | hm
    · rw [he]; rfl
    · exact h _ hm
  simp only [hd, Bool.and_false, Bool.false_and]
  simp

theorem joinGo_id : ∀ (s : List Char), (∀ c ∈ s, c.isDigit = false) → joinGo 0 s = s := by
  intro s
  induction s with
  | nil => intro _; rfl
  | cons c rest ih =>
    intro h
    rw [joinGo, matchJoinAt_none (c :: rest) h,
      ih (fun x hx => h x (List.mem_cons_of_mem _ hx))]

theorem joinFix_id (s : List Char) (h : ∀ c ∈ s, c.isDigit = false) : joinFix s = s := by
  have hsub : joinSubGo s = s := joinGo_id s h
  rw [joinFix, hsub]
  simp

theorem citeLowGo_id : ∀ (s : List Char), (∀ c ∈ s, c.isDigit = false) → citeLowGo 0 s = s := by
  intro s
  induction s with
  | nil => intro _; rfl
  | cons c rest ih =>
    intro h
    have hrest : ∀ x ∈ rest, x.isDigit = false := fun x hx => h x (List.mem_cons_of_mem _ hx)
    rw [citeLowGo]
    by_cases hc : c = '[' ∧ rest.head? = some '['
    · rw [if_pos hc, matchCiteInner_none rest.tail
        (fun x hx => hrest x (List.mem_of_mem_tail hx)), ih hrest]
    · rw [if_neg hc, ih hrest]

theorem refGo_id (pre : List Char) (hpre : ':' ∈ pre) :
    ∀ (s : List Char), (∀ c ∈ s, c ≠ ':') → refGo pre 0 s = s := by
  intro s
  induction s with
  | nil => intro _; rfl
  | cons c rest ih =>
    intro h
    have hrest : ∀ x ∈ rest, x ≠ ':' := fun x hx => h x (List.mem_cons_of_mem _ hx)
    by_cases hc : c = '`'
    · subst hc
      have hrm : refMatch pre rest = none := by
        unfold refMatch
        have hcond : ¬(rest.take pre.length = pre) := by
          intro htk
          have hmem : ':' ∈ rest.take pre.length := by rw [htk]; exact hpre
          exact hrest ':' (List.take_subset _ _ hmem) rfl
        rw [if_neg hcond]
      rw [refGo, if_pos rfl, hrm, ih hrest]
    · rw [refGo, if_neg hc, ih hrest]

theorem monoGo_skip : ∀ (s : List Char) (k : Nat),
    monoGo (k + 1) s = monoGo 0 (s.drop (k + 1)) := by
  intro s
  induction s with
  | nil => intro k; simp [monoGo]
  | cons a rest ih =>
    intro k
    show monoGo (k + 1) (a :: rest) = monoGo 0 (rest.drop k)
    cases k with
    | zero => rfl
    | succ k => exact ih k

theorem monoGo_copy : ∀ (x : List Char), (∀ c ∈ x, c ≠ '`') → ∀ y,
    monoGo 0 (x ++ y) = x ++ monoGo 0 y := by
  intro x
  induction x with
  | nil => intro _ y; simp
  | cons a x' ih =>
    intro h y
    have ha : a ≠ '`' := h a (by simp)
    have h' : ∀ c ∈ x', c ≠ '`' := fun c hc => h c (by simp [hc])
    rw [List.cons_append, monoGo, if_neg ha, ih h' y]
    rfl

theorem monoGo_id (s : List Char) (h : ∀ c ∈ s, c ≠ '`') : monoGo 0 s = s := by
  have hthis := monoGo_copy s h []
  simp only [List.append_nil, show monoGo 0 ([] : List Char) = [] from rfl] at hthis
  exact hthis

theorem tqGo_cons_ne (b : Bool) (c : Char) (rest : List Char) (hc : c ≠ '*') :
    tqGo b 0 (c :: rest) = c :: tqGo false 0 rest := by
  rcases rest with _ | ⟨c1, _ | ⟨c0, rest2⟩⟩ <;>
    · rw [tqGo.eq_def]
      simp [hc]

theorem tqGo_id : ∀ (s : List Char) (b : Bool), (∀ c ∈ s, c ≠ '*') → tqGo b 0 s = s := by
  intro s
  induction s with
  | nil => intro b _; rfl
  | cons c rest ih =>
    intro b h
    rw [tqGo_cons_ne b c rest (h c (by simp)),
      ih false (fun x hx => h x (List.mem_cons_of_mem _ hx))]

theorem italGo_cons_ne (b : Bool) (c : Char) (rest : List Char) (hc : c ≠ '*') :
    italGo b 0 (c :: rest) = c :: italGo false 0 rest := by
  rcases rest with _ | ⟨c0, rest2⟩ <;>
    · rw [italGo.eq_def]
      simp [hc]

theorem italGo_id : ∀ (s : List Char) (b : Bool), (∀ c ∈ s, c ≠ '*') → italGo b 0 s = s := by
  intro s
  induction s with
  | nil => intro b _; rfl
  | cons c rest ih =>
    intro b h
    rw [italGo_cons_ne b c rest (h c (by simp)),
      ih false (fun x hx => h x (List.mem_cons_of_mem _ hx))]

theorem emphGo_cons_ne (d : Char) (cmd : List Char) (c : Char) (rest : List Char) (hc : c ≠ d) :
    emphGo d cmd 0 (c :: rest) = c :: emphGo d cmd 0 rest := by
  rcases rest with _ | ⟨c1, _ | ⟨c0, rest2⟩⟩ <;>
    · rw [emphGo.eq_def]
      simp [hc]

theorem emphGo_id (d : Char) (cmd : List Char) :
    ∀ (s : List Char), (∀ c ∈ s, c ≠ d) → emphGo d cmd 0 s = s := by
  intro s
  induction s with
  | nil => intro _; rfl
  | cons c rest ih =>
    intro h
    rw [emphGo_cons_ne d cmd c rest (h c (by simp)),
      ih (fun x hx => h x (List.mem_cons_of_mem _ hx))]

/-- The template line of the protection round-trip: one backtick code
span, one single-dollar math span and one double-bracket link span. -/
def protLine (code math link : List Char) : List Char :=
  '`' :: code ++ '`' :: " and $".data ++ math ++ '$' :: " and [[".data ++ link ++ "]]".data

/-- The protected form of the template line: the three placeholders. -/
def protProtected : List Char :=
  "<CODE-PLACEHOLDER> and <EQ-PLACEHOLDER> and <LINK-PLACEHOLDER>".data

theorem restoreAll_one (pat a s : List Char) : restoreAll pat [a] s = replaceFirst pat a s := rfl

theorem stage1_scan (code math link : List Char)
    (hcode : ∀ c ∈ code, c ≠ '$') (hmath : ∀ c ∈ math, c ≠ '$')
    (hlink : ∀ c ∈ link, c ≠ '$') :
    ∀ repl : List Char, delimGo '$' [] ['$'] repl 0 (protLine code math link) =
      (['$' :: (math ++ ['$'])],
        '`' :: (code ++ ('`' :: ([' ', 'a', 'n', 'd', ' '] ++ (repl ++
          ([' ', 'a', 'n', 'd', ' '] ++ ('[' :: ('[' :: (link ++ [']', ']']))))))))) := by
  intro repl
  have hsplit1 : protLine code math link =
      ('`' :: code ++ '`' :: [' ', 'a', 'n', 'd', ' ']) ++
        (('$' :: []) ++ math ++ ('$' :: []) ++
          ([' ', 'a', 'n', 'd', ' '] ++ '[' :: '[' :: (link ++ [']', ']']))) := by
    simp [protLine, show " and $".data = [' ', 'a', 'n', 'd', ' ', '$'] from rfl,
      show " and [[".data = [' ', 'a', 'n', 'd', ' ', '[', '['] from rfl,
      show "]]".data = [']', ']'] from rfl]
  have hx1 : ∀ c ∈ ('`' :: code ++ '`' :: [' ', 'a', 'n', 'd', ' ']), c ≠ '$' :=
    forall_mem_cons2 (by decide) (forall_mem_append2 hcode (by
      exact forall_mem_cons2 (by decide) (by decide)))
  have hy1 : ∀ c ∈ ([' ', 'a', 'n', 'd', ' '] ++ '[' :: '[' :: (link ++ [']', ']'])), c ≠ '$' :=
    forall_mem_append2 (by decide) (forall_mem_cons2 (by decide) (forall_mem_cons2 (by decide)
      (forall_mem_append2 hlink (by decide))))
  rw [hsplit1, delimGo_copy '$' [] ['$'] repl _ hx1,
    delimGo_match '$' [] '$' [] repl math _ hmath,
    delimGo_no_open '$' [] ['$'] repl _ hy1]
  simp

theorem stage2_scan (pfx link : List Char)
    (hpfx : ∀ c ∈ pfx, c ≠ '[') (hlink : ∀ c ∈ link, c ≠ ']') :
    ∀ repl : List Char,
    delimGo '[' ['['] [']', ']'] repl 0 (pfx ++ (('[' :: ['[']) ++ link ++ (']' :: [']']) ++ [])) =
      (['[' :: ('[' :: (link ++ [']', ']']))], pfx ++ repl) := by
  intro repl
  rw [delimGo_copy '[' ['['] [']', ']'] repl _ hpfx,
    delimGo_match '[' ['['] ']' [']'] repl link _ hlink]
  simp [show delimGo '[' ['['] [']', ']'] repl 0 [] = ([], []) from rfl]

theorem stage3_scan (code sfx : List Char)
    (hcode : ∀ c ∈ code, c ≠ '`') (hsfx : ∀ c ∈ sfx, c ≠ '`') :
    ∀ repl : List Char,
    delimGo '`' [] ['`'] repl 0 (('`' :: []) ++ code ++ ('`' :: []) ++ sfx) =
      (['`' :: (code ++ ['`'])], repl ++ sfx) := by
  intro repl
  rw [delimGo_match '`' [] '`' [] repl code _ hcode,
    delimGo_no_open '`' [] ['`'] repl _ hsfx]
  simp

theorem restore_links (link : List Char) :
    replaceFirst linkPH ('[' :: ('[' :: (link ++ [']', ']']))) protProtected =
      "<CODE-PLACEHOLDER> and <EQ-PLACEHOLDER> and ".data ++
        ('[' :: ('[' :: (link ++ [']', ']']))) := by
  unfold replaceFirst
  simp only [show findSubstrIdx linkPH protProtected = some 44 from by decide,
    show List.take 44 protProtected = "<CODE-PLACEHOLDER> and <EQ-PLACEHOLDER> and ".data
      from by decide,
    show List.drop (44 + linkPH.length) protProtected = [] from by decide]
  simp

theorem restore_math (math link : List Char) :
    replaceFirst eqPH ('$' :: (math ++ ['$']))
      ("<CODE-PLACEHOLDER> and <EQ-PLACEHOLDER> and ".data ++
        ('[' :: ('[' :: (link ++ [']', ']'])))) =
      "<CODE-PLACEHOLDER> and ".data ++ ('$' :: (math ++ ('$' ::
        ([' ', 'a', 'n', 'd', ' ', '[', '['] ++ (link ++ [']', ']']))))) := by
  have hsp : "<CODE-PLACEHOLDER> and <EQ-PLACEHOLDER> and ".data ++
        ('[' :: ('[' :: (link ++ [']', ']'])))
      = ("<CODE-PLACEHOLDER> and <EQ-PLACEHOLDER> and ".data ++ ['[', '[']) ++
        (link ++ [']', ']']) := by
    simp
  unfold replaceFirst
  rw [hsp]
  simp only [findSubstrIdx_extend eqPH
    ("<CODE-PLACEHOLDER> and <EQ-PLACEHOLDER> and ".data ++ ['[', '[']) 23 (by decide)
    (link ++ [']', ']'])]
  rw [List.take_append_of_le_length (by decide),
    show List.take 23 ("<CODE-PLACEHOLDER> and <EQ-PLACEHOLDER> and ".data ++ ['[', '[']) =
      "<CODE-PLACEHOLDER> and ".data from by decide,
    List.drop_append_eq_append_drop,
    show List.drop (23 + eqPH.length)
      ("<CODE-PLACEHOLDER> and <EQ-PLACEHOLDER> and ".data ++ ['[', '[']) =
      [' ', 'a', 'n', 'd', ' ', '[', '['] from by decide,
    show 23 + eqPH.length -
      ("<CODE-PLACEHOLDER> and <EQ-PLACEHOLDER> and ".data ++ ['[', '[']).length = 0 from by decide,
    List.drop_zero]
  simp

theorem restore_code (code math link : List Char) :
    replaceFirst codePH ('`' :: (code ++ ['`']))
      ("<CODE-PLACEHOLDER> and ".data ++ ('$' :: (math ++ ('$' ::
        ([' ', 'a', 'n', 'd', ' ', '[', '['] ++ (link ++ [']', ']'])))))) =
      '`' :: (code ++ ('`' :: ([' ', 'a', 'n', 'd', ' ', '$'] ++ (math ++ ('$' ::
        ([' ', 'a', 'n', 'd', ' ', '[', '['] ++ (link ++ [']', ']']))))))) := by
  have hsp : "<CODE-PLACEHOLDER> and ".data ++ ('$' :: (math ++ ('$' ::
        ([' ', 'a', 'n', 'd', ' ', '[', '['] ++ (link ++ [']', ']']))))) =
      ("<CODE-PLACEHOLDER> and ".data ++ ['$']) ++
        (math ++ ('$' :: ([' ', 'a', 'n', 'd', ' ', '[', '['] ++ (link ++ [']', ']'])))) := by
    simp
  unfold replaceFirst
  rw [hsp]
  simp only [findSubstrIdx_extend codePH ("<CODE-PLACEHOLDER> and ".data ++ ['$']) 0 (by decide)
    (math ++ ('$' :: ([' ', 'a', 'n', 'd', ' ', '[', '['] ++ (link ++ [']', ']']))))]
  rw [List.take_zero,
    List.drop_append_eq_append_drop,
    show List.drop (0 + codePH.length) ("<CODE-PLACEHOLDER> and ".data ++ ['$']) =
      [' ', 'a', 'n', 'd', ' ', '$'] from by decide,
    show 0 + codePH.length - ("<CODE-PLACEHOLDER> and ".data ++ ['$']).length = 0 from by decide,
    List.drop_zero]
  simp

theorem mono_span (code post : List Char) (hcode : ∀ c ∈ code, c ≠ '`')
    (hpost : ∀ c ∈ post, c ≠ '`') :
    monoGo 0 ('`' :: (code ++ '`' :: post)) =
      "\\texttt\x7b".data ++ (code ++ ('\x7d' :: post)) := by
  rw [monoGo]
  have hfind : findIdxOf '`' (code ++ '`' :: post) = some code.length :=
    findIdxOf_append '`' code post (fun hc => (hcode '`' hc) rfl)
  simp only [if_pos rfl, hfind]
  have htake : (code ++ '`' :: post).take code.length = code := by
    rw [List.take_append_of_le_length (le_refl code.length), List.take_length]
  rw [htake, monoGo_skip]
  have hdrop : (code ++ '`' :: post).drop (code.length + 1) = post := by
    rw [show (code ++ '`' :: post) = (code ++ ['`']) ++ post by simp,
      show code.length + 1 = (code ++ ['`']).length by simp]
    exact List.drop_left _ _
  rw [hdrop, monoGo_id post hpost]
  simp

/-- C6: protection round-trip in `format_text`.  For a line holding a
backtick code span, a single-dollar math span and a double-bracket link
span (span texts over lowercase letters and underscore), the three spans
are extracted as the placeholder queues (one span per kind), the protected
line is exactly the three placeholders and passes escaping and
bracket-guarding untouched, restoring links, then math, then code yields
the original line bytes, and the full pipeline returns the line with the
code span lowered to monospace and the math and link spans byte-identical
(even when they hold the escapable underscore).  The concrete
two-math-span line shows FIFO placeholder matching: each placeholder is
replaced by the next queued span in order while the unprotected
underscore is escaped. -/
theorem protection_round_trip (code math link : List Char)
    (hcode : ∀ c ∈ code, c ∈ protChars) (hmath : ∀ c ∈ math, c ∈ protChars)
    (hlink : ∀ c ∈ link, c ∈ protChars) :
    findSpans '$' [] ['$'] (protLine code math link) = ['$' :: (math ++ ['$'])] ∧
    findSpans '[' ['['] [']', ']'] (protLine code math link) =
      ['[' :: ('[' :: (link ++ [']', ']']))] ∧
    findSpans '`' [] ['`'] (protLine code math link) = ['`' :: (code ++ ['`'])] ∧
    bracketGuard (escapeSpecials (subSpans '`' [] ['`'] codePH (subSpans '[' ['['] [']', ']'] linkPH
      (subSpans '$' [] ['$'] eqPH (protLine code math link))))) = protProtected ∧
    restoreAll codePH ['`' :: (code ++ ['`'])] (restoreAll eqPH ['$' :: (math ++ ['$'])]
      (restoreAll linkPH ['[' :: ('[' :: (link ++ [']', ']']))] protProtected)) =
      protLine code math link ∧
    format_line (protLine code math link) =
      "\\texttt\x7b".data ++ code ++ '\x7d' :: " and $".data ++ math ++ '$' :: " and [[".data ++
        link ++ "]]".data ∧
    format_text ["$a_1$ x_y $b_2$".data] = ["$a_1$ x\\_y $b_2$".data] := by
  have hcodeF := fun c hc => prot_facts c (hcode c hc)
  have hmathF := fun c hc => prot_facts c (hmath c hc)
  have hlinkF := fun c hc => prot_facts c (hlink c hc)
  have hT8 : ∀ (p : Char → Prop), (∀ c ∈ ([' ', 'a', 'n', 'd', ' ', '$'] : List Char), p c) →
      p '$' → (∀ c ∈ ([' ', 'a', 'n', 'd', ' ', '[', '['] : List Char), p c) →
      (∀ c ∈ ([']', ']'] : List Char), p c) →
      (∀ c ∈ math, p c) → (∀ c ∈ link, p c) →
      ∀ c ∈ [' ', 'a', 'n', 'd', ' ', '$'] ++ (math ++ ('$' ::
        ([' ', 'a', 'n', 'd', ' ', '[', '['] ++ (link ++ [']', ']'])))), p c :=
    fun p h1 h2 h3 h4 hm hl => forall_mem_append2 h1 (forall_mem_append2 hm
      (forall_mem_cons2 h2 (forall_mem_append2 h3 (forall_mem_append2 hl h4))))
  have hcode_b : ∀ c ∈ code, c ≠ '`' := fun c hc => (hcodeF c hc).2.1
  have hT8_b : ∀ c ∈ [' ', 'a', 'n', 'd', ' ', '$'] ++ (math ++ ('$' ::
      ([' ', 'a', 'n', 'd', ' ', '[', '['] ++ (link ++ [']', ']'])))), c ≠ '`' :=
    hT8 _ (by decide) (by decide) (by decide) (by decide)
      (fun c hc => (hmathF c hc).2.1) (fun c hc => (hlinkF c hc).2.1)
  have hfull : ∀ (p : Char → Prop), p '`' → (∀ c ∈ code, p c) →
      (∀ c ∈ [' ', 'a', 'n', 'd', ' ', '$'] ++ (math ++ ('$' ::
        ([' ', 'a', 'n', 'd', ' ', '[', '['] ++ (link ++ [']', ']'])))), p c) →
      ∀ c ∈ '`' :: (code ++ ('`' :: ([' ', 'a', 'n', 'd', ' ', '$'] ++ (math ++ ('$' ::
        ([' ', 'a', 'n', 'd', ' ', '[', '['] ++ (link ++ [']', ']']))))))), p c :=
    fun p hb hc' ht' => forall_mem_cons2 hb (forall_mem_append2 hc' (forall_mem_cons2 hb ht'))
  have hfull_dig : ∀ c ∈ '`' :: (code ++ ('`' :: ([' ', 'a', 'n', 'd', ' ', '$'] ++ (math ++
      ('$' :: ([' ', 'a', 'n', 'd', ' ', '[', '['] ++ (link ++ [']', ']']))))))),
      c.isDigit = false :=
    hfull _ (by decide) (fun c hc => (hcodeF c hc).2.2.2.2.2.2.2)
      (hT8 _ (by decide) (by decide) (by decide) (by decide)
        (fun c hc => (hmathF c hc).2.2.2.2.2.2.2) (fun c hc => (hlinkF c hc).2.2.2.2.2.2.2))
  have hfull_col : ∀ c ∈ '`' :: (code ++ ('`' :: ([' ', 'a', 'n', 'd', ' ', '$'] ++ (math ++
      ('$' :: ([' ', 'a', 'n', 'd', ' ', '[', '['] ++ (link ++ [']', ']']))))))), c ≠ ':' :=
    hfull _ (by decide) (fun c hc => (hcodeF c hc).2.2.2.2.2.2.1)
      (hT8 _ (by decide) (by decide) (by decide) (by decide)
        (fun c hc => (hmathF c hc).2.2.2.2.2.2.1) (fun c hc => (hlinkF c hc).2.2.2.2.2.2.1))
  have hS14 : ∀ (p : Char → Prop), (∀ c ∈ "\\texttt\x7b".data, p c) → (∀ c ∈ code, p c) →
      p '\x7d' →
      (∀ c ∈ [' ', 'a', 'n', 'd', ' ', '$'] ++ (math ++ ('$' ::
        ([' ', 'a', 'n', 'd', ' ', '[', '['] ++ (link ++ [']', ']'])))), p c) →
      ∀ c ∈ "\\texttt\x7b".data ++ (code ++ ('\x7d' :: ([' ', 'a', 'n', 'd', ' ', '$'] ++ (math ++
        ('$' :: ([' ', 'a', 'n', 'd', ' ', '[', '['] ++ (link ++ [']', ']']))))))), p c :=
    fun p h1 h2 h3 h4 => forall_mem_append2 h1 (forall_mem_append2 h2 (forall_mem_cons2 h3 h4))
  have hS14_star : ∀ c ∈ "\\texttt\x7b".data ++ (code ++ ('\x7d' ::
      ([' ', 'a', 'n', 'd', ' ', '$'] ++ (math ++ ('$' ::
        ([' ', 'a', 'n', 'd', ' ', '[', '['] ++ (link ++ [']', ']']))))))), c ≠ '*' :=
    hS14 _ (by decide) (fun c hc => (hcodeF c hc).2.2.2.2.1) (by decide)
      (hT8 _ (by decide) (by decide) (by decide) (by decide)
        (fun c hc => (hmathF c hc).2.2.2.2.1) (fun c hc => (hlinkF c hc).2.2.2.2.1))
  have hS14_eq : ∀ c ∈ "\\texttt\x7b".data ++ (code ++ ('\x7d' ::
      ([' ', 'a', 'n', 'd', ' ', '$'] ++ (math ++ ('$' ::
        ([' ', 'a', 'n', 'd', ' ', '[', '['] ++ (link ++ [']', ']']))))))), c ≠ '=' :=
    hS14 _ (by decide) (fun c hc => (hcodeF c hc).2.2.2.2.2.1) (by decide)
      (hT8 _ (by decide) (by decide) (by decide) (by decide)
        (fun c hc => (hmathF c hc).2.2.2.2.2.1) (fun c hc => (hlinkF c hc).2.2.2.2.2.1))
  have h_eqs : findSpans '$' [] ['$'] (protLine code math link) = ['$' :: (math ++ ['$'])] := by
    unfold findSpans
    rw [stage1_scan code math link (fun c hc => (hcodeF c hc).1) (fun c hc => (hmathF c hc).1)
      (fun c hc => (hlinkF c hc).1) []]
  have h_s1 : subSpans '$' [] ['$'] eqPH (protLine code math link) =
      '`' :: (code ++ ('`' :: ([' ', 'a', 'n', 'd', ' '] ++ (eqPH ++
        ([' ', 'a', 'n', 'd', ' '] ++ ('[' :: ('[' :: (link ++ [']', ']'])))))))) := by
    unfold subSpans
    rw [stage1_scan code math link (fun c hc => (hcodeF c hc).1) (fun c hc => (hmathF c hc).1)
      (fun c hc => (hlinkF c hc).1) eqPH]
  have hX2a : ∀ c ∈ '`' :: (code ++ ('`' :: ([' ', 'a', 'n', 'd', ' '] ++ ('$' :: (math ++
      ('$' :: [' ', 'a', 'n', 'd', ' '])))))), c ≠ '[' :=
    forall_mem_cons2 (by decide) (forall_mem_append2 (fun c hc => (hcodeF c hc).2.2.1)
      (forall_mem_cons2 (by decide) (forall_mem_append2 (by decide)
        (forall_mem_cons2 (by decide) (forall_mem_append2 (fun c hc => (hmathF c hc).2.2.1)
          (forall_mem_cons2 (by decide) (by decide)))))))
  have h_links : findSpans '[' ['['] [']', ']'] (protLine code math link) =
      ['[' :: ('[' :: (link ++ [']', ']']))] := by
    unfold findSpans
    rw [show protLine code math link =
        ('`' :: (code ++ ('`' :: ([' ', 'a', 'n', 'd', ' '] ++ ('$' :: (math ++
          ('$' :: [' ', 'a', 'n', 'd', ' ']))))))) ++
          (('[' :: ['[']) ++ link ++ (']' :: [']']) ++ []) by
      simp [protLine, show " and $".data = [' ', 'a', 'n', 'd', ' ', '$'] from rfl,
        show " and [[".data = [' ', 'a', 'n', 'd', ' ', '[', '['] from rfl,
        show "]]".data = [']', ']'] from rfl]]
    rw [stage2_scan _ link hX2a (fun c hc => (hlinkF c hc).2.2.2.1) []]
  have hX2b : ∀ c ∈ '`' :: (code ++ ('`' :: ([' ', 'a', 'n', 'd', ' '] ++ (eqPH ++
      [' ', 'a', 'n', 'd', ' '])))), c ≠ '[' :=
    forall_mem_cons2 (by decide) (forall_mem_append2 (fun c hc => (hcodeF c hc).2.2.1)
      (forall_mem_cons2 (by decide) (forall_mem_append2 (by decide)
        (forall_mem_append2 (by decide) (by decide)))))
  have h_s2 : subSpans '[' ['['] [']', ']'] linkPH
      ('`' :: (code ++ ('`' :: ([' ', 'a', 'n', 'd', ' '] ++ (eqPH ++
        ([' ', 'a', 'n', 'd', ' '] ++ ('[' :: ('[' :: (link ++ [']', ']']))))))))) =
      ('`' :: (code ++ ('`' :: ([' ', 'a', 'n', 'd', ' '] ++ (eqPH ++
        [' ', 'a', 'n', 'd', ' ']))))) ++ linkPH := by
    unfold subSpans
    rw [show ('`' :: (code ++ ('`' :: ([' ', 'a', 'n', 'd', ' '] ++ (eqPH ++
        ([' ', 'a', 'n', 'd', ' '] ++ ('[' :: ('[' :: (link ++ [']', ']']))))))))) =
        ('`' :: (code ++ ('`' :: ([' ', 'a', 'n', 'd', ' '] ++ (eqPH ++
          [' ', 'a', 'n', 'd', ' ']))))) ++
          (('[' :: ['[']) ++ link ++ (']' :: [']']) ++ []) by simp]
    rw [stage2_scan _ link hX2b (fun c hc => (hlinkF c hc).2.2.2.1) linkPH]
  have hT0_b : ∀ c ∈ [' ', 'a', 'n', 'd', ' '] ++ ('$' :: (math ++ ('$' ::
      ([' ', 'a', 'n', 'd', ' '] ++ ('[' :: ('[' :: (link ++ [']', ']']))))))), c ≠ '`' :=
    forall_mem_append2 (by decide) (forall_mem_cons2 (by decide)
      (forall_mem_append2 (fun c hc => (hmathF c hc).2.1) (forall_mem_cons2 (by decide)
        (forall_mem_append2 (by decide) (forall_mem_cons2 (by decide) (forall_mem_cons2 (by decide)
          (forall_mem_append2 (fun c hc => (hlinkF c hc).2.1) (by decide))))))))
  have h_codes : findSpans '`' [] ['`'] (protLine code math link) =
      ['`' :: (code ++ ['`'])] := by
    unfold findSpans
    rw [show protLine code math link = ('`' :: []) ++ code ++ ('`' :: []) ++
        ([' ', 'a', 'n', 'd', ' '] ++ ('$' :: (math ++ ('$' ::
          ([' ', 'a', 'n', 'd', ' '] ++ ('[' :: ('[' :: (link ++ [']', ']'])))))))) by
      simp [protLine, show " and $".data = [' ', 'a', 'n', 'd', ' ', '$'] from rfl,
        show " and [[".data = [' ', 'a', 'n', 'd', ' ', '[', '['] from rfl,
        show "]]".data = [']', ']'] from rfl]]
    rw [stage3_scan code _ hcode_b hT0_b []]
  have hW_b : ∀ c ∈ [' ', 'a', 'n', 'd', ' '] ++ (eqPH ++ ([' ', 'a', 'n', 'd', ' '] ++ linkPH)),
      c ≠ '`' :=
    forall_mem_append2 (by decide) (forall_mem_append2 (by decide)
      (forall_mem_append2 (by decide) (by decide)))
  have h_s3 : subSpans '`' [] ['`'] codePH
      (('`' :: (code ++ ('`' :: ([' ', 'a', 'n', 'd', ' '] ++ (eqPH ++
        [' ', 'a', 'n', 'd', ' ']))))) ++ linkPH) =
      codePH ++ ([' ', 'a', 'n', 'd', ' '] ++ (eqPH ++ ([' ', 'a', 'n', 'd', ' '] ++
        linkPH))) := by
    unfold subSpans
    rw [show (('`' :: (code ++ ('`' :: ([' ', 'a', 'n', 'd', ' '] ++ (eqPH ++
        [' ', 'a', 'n', 'd', ' ']))))) ++ linkPH) = ('`' :: []) ++ code ++ ('`' :: []) ++
        ([' ', 'a', 'n', 'd', ' '] ++ (eqPH ++ ([' ', 'a', 'n', 'd', ' '] ++ linkPH))) by simp]
    rw [stage3_scan code _ hcode_b hW_b codePH]
  have h_prot : codePH ++ ([' ', 'a', 'n', 'd', ' '] ++ (eqPH ++ ([' ', 'a', 'n', 'd', ' '] ++
      linkPH))) = protProtected := by decide
  have h_s45 : bracketGuard (escapeSpecials protProtected) = protProtected := by decide
  have h_s9 : citeNormalize ('`' :: (code ++ ('`' :: ([' ', 'a', 'n', 'd', ' ', '$'] ++ (math ++
      ('$' :: ([' ', 'a', 'n', 'd', ' ', '[', '['] ++ (link ++ [']', ']'])))))))) =
      '`' :: (code ++ ('`' :: ([' ', 'a', 'n', 'd', ' ', '$'] ++ (math ++
        ('$' :: ([' ', 'a', 'n', 'd', ' ', '[', '['] ++ (link ++ [']', ']']))))))) := by
    rw [citeNorm_span code _ hcode_b hT8_b,
      matchesCiteKey_no_digit code (fun c hc => (hcodeF c hc).2.2.2.2.2.2.2),
      if_neg (by simp),
      show citeNormalize ([' ', 'a', 'n', 'd', ' ', '$'] ++ (math ++ ('$' ::
          ([' ', 'a', 'n', 'd', ' ', '[', '['] ++ (link ++ [']', ']']))))) =
        ([' ', 'a', 'n', 'd', ' ', '$'] ++ (math ++ ('$' ::
          ([' ', 'a', 'n', 'd', ' ', '[', '['] ++ (link ++ [']', ']']))))) from
        citeNormGo_id _ hT8_b]
    simp
  refine ⟨h_eqs, h_links, h_codes, ?_, ?_, ?_, ?_⟩
  · rw [h_s1, h_s2, h_s3, h_prot, h_s45]
  · simp only [restoreAll_one]
    rw [restore_links link, restore_math math link, restore_code code math link]
    simp [protLine, show " and $".data = [' ', 'a', 'n', 'd', ' ', '$'] from rfl,
      show " and [[".data = [' ', 'a', 'n', 'd', ' ', '[', '['] from rfl,
      show "]]".data = [']', ']'] from rfl]
  · simp only [format_line]
    rw [h_eqs, h_links, h_codes, h_s1, h_s2, h_s3, h_prot, h_s45]
    simp only [restoreAll_one]
    rw [restore_links link, restore_math math link, restore_code code math link, h_s9,
      joinFix_id _ hfull_dig, citeLowGo_id _ hfull_dig,
      refGo_id "fig:".data (by decide) _ hfull_col, refGo_id "eq:".data (by decide) _ hfull_col,
      mono_span code _ hcode_b hT8_b,
      tqGo_id _ false hS14_star, italGo_id _ false hS14_star,
      emphGo_id '*' "\\textbf\x7b".data _ hS14_star, emphGo_id '=' "\\hl\x7b".data _ hS14_eq]
    simp [show " and $".data = [' ', 'a', 'n', 'd', ' ', '$'] from rfl,
      show " and [[".data = [' ', 'a', 'n', 'd', ' ', '[', '['] from rfl,
      show "]]".data = [']', ']'] from rfl]
  · simp only [format_text, List.map]
    rw [format_line_eval]
    decide

theorem protection_round_trip_witness :
    (∀ c ∈ "code".data, c ∈ protChars) ∧
    format_line (protLine "code".data "x".data "link".data) =
      "\\texttt\x7bcode\x7d and $x$ and [[link]]".data :=
  ⟨by decide,
    ((protection_round_trip "code".data "x".data "link".data (by decide) (by decide)
      (by decide)).2.2.2.2.2.1).trans (by decide)⟩
